import Mathlib

/-!
# Verification of the Wikipedia summary service core

A shallow embedding, in Lean 4, of the core algorithms of the service:
the text chunker/truncator, the extractive-fallback summarizer, the
map-reduce generation pipeline with model fallback, the Portuguese
translation gate, the cache/store insert contract, the orchestrator's
get-or-create flow, the Wikipedia URL normalizer (including a model of
Python's `urllib.parse.urlsplit`), and the redirect-validating fetcher.

Python strings are modelled as `List Char`; the functions below are
direct translations of the corresponding Python functions, keeping the
source's control flow.  Network and LLM effects are modelled as oracle
functions passed in explicitly; call sequencing is made explicit by
threading a call-counter (for LLM invocations) or by recursion fuel
(for the redirect loop).
-/

namespace WikiSpec

/-- Equality on `Except` results is decidable when it is on both sides. -/
instance {ε α : Type} [DecidableEq ε] [DecidableEq α] : DecidableEq (Except ε α) :=
  fun a b =>
    match a, b with
    | .error e1, .error e2 =>
      if h : e1 = e2 then isTrue (by rw [h])
      else isFalse (by intro hc; cases hc; exact h rfl)
    | .error _, .ok _ => isFalse (by intro hc; cases hc)
    | .ok _, .error _ => isFalse (by intro hc; cases hc)
    | .ok a1, .ok a2 =>
      if h : a1 = a2 then isTrue (by rw [h])
      else isFalse (by intro hc; cases hc; exact h rfl)

/-! ## Character classes (Python `str` semantics, ASCII range) -/

/-- Python whitespace for `str.split` / `\s` (ASCII range). -/
def isSpace (c : Char) : Bool :=
  c = ' ' || c = '\t' || c = '\n' || c = '\x0b' || c = '\x0c' || c = '\r'

/-- Terminal sentence punctuation, as in `endswith((".", "!", "?"))`. -/
def isTerminal (c : Char) : Bool :=
  c = '.' || c = '!' || c = '?'

/-- The characters removed by `rstrip(" ,;:-")` in `_truncate_to_word_limit`. -/
def isTrailStripChar (c : Char) : Bool :=
  c = ' ' || c = ',' || c = ';' || c = ':' || c = '-'

/-! ## `str.split()` / whitespace handling -/

/-- Worker for `pyWords`: `acc` is the current word, reversed. -/
def pyWordsAux : List Char → List Char → List (List Char)
  | acc, [] => if acc.isEmpty then [] else [acc.reverse]
  | acc, c :: rest =>
    if isSpace c then
      if acc.isEmpty then pyWordsAux [] rest
      else acc.reverse :: pyWordsAux [] rest
    else pyWordsAux (c :: acc) rest

/-- Python `text.split()`: maximal runs of non-whitespace characters. -/
def pyWords (cs : List Char) : List (List Char) :=
  pyWordsAux [] cs

/-- Python `" ".join(ws)`. -/
def joinSp : List (List Char) → List Char
  | [] => []
  | [w] => w
  | w :: ws => w ++ ' ' :: joinSp ws

/-- Python `text.strip()` (strip whitespace from both ends). -/
def pyStrip (cs : List Char) : List Char :=
  ((cs.dropWhile isSpace).reverse.dropWhile isSpace).reverse

/-- `_normalize_whitespace`: `WHITESPACE_PATTERN.sub(" ", text).strip()`,
collapsing every whitespace run to a single space and stripping the ends;
this is the same function as `" ".join(text.split())`. -/
def normWs (cs : List Char) : List Char :=
  joinSp (pyWords cs)

/-! ## Sentence splitting: `re.split(r"(?<=[.!?])\s+", text)`

The regex splits at every maximal whitespace run that is preceded by a
terminal punctuation character.  `sentAux false acc cs` scans `cs`
building the current segment `acc` (reversed); `sentAux true _ cs` is
the state inside the whitespace run that was just split on. -/

/-- Whether the previously written character (head of the reversed
segment) is terminal punctuation, i.e. the `(?<=[.!?])` lookbehind. -/
def lastIsTerminal (acc : List Char) : Bool :=
  match acc with
  | c :: _ => isTerminal c
  | [] => false

/-- State machine for `re.split(r"(?<=[.!?])\s+", ·)`. -/
def sentAux : Bool → List Char → List Char → List (List Char)
  | false, acc, [] => [acc.reverse]
  | false, acc, c :: rest =>
    if isSpace c && lastIsTerminal acc then acc.reverse :: sentAux true [] rest
    else sentAux false (c :: acc) rest
  | true, _, [] => [[]]
  | true, _, c :: rest =>
    if isSpace c then sentAux true [] rest else sentAux false [c] rest

/-- `SENTENCE_SPLIT_PATTERN.split(text)`. -/
def sentSplit (cs : List Char) : List (List Char) :=
  sentAux false [] cs

/-! ## `_truncate_to_word_limit` and `_split_text_into_chunks` -/

/-- Python `text.rstrip(" ,;:-")`. -/
def rstripTrail (cs : List Char) : List Char :=
  (cs.reverse.dropWhile isTrailStripChar).reverse

/-- Python `text.endswith((".", "!", "?"))`. -/
def endsTerminal (cs : List Char) : Bool :=
  match cs.getLast? with
  | some c => isTerminal c
  | none => false

/-- `_truncate_to_word_limit(text, max_words)` from `summarizer.py`.
`int(max_words * 0.6)` is rendered as `3 * max_words / 5` (floor), which
agrees with the float computation for all realistic word counts. -/
def truncate_to_word_limit (text : List Char) (max_words : Nat) : List Char :=
  let words := pyWords text
  if words.length ≤ max_words then pyStrip text
  else
    let truncated_words := words.take max_words
    let truncated_text := pyStrip (joinSp truncated_words)
    let sentences := sentSplit truncated_text
    let t2 :=
      if 1 < sentences.length then
        let candidate := pyStrip (joinSp sentences.dropLast)
        if ¬candidate.isEmpty ∧ max 1 (3 * max_words / 5) ≤ (pyWords candidate).length
        then candidate
        else truncated_text
      else truncated_text
    let t3 := rstripTrail t2
    if endsTerminal t3 then t3 else t3 ++ ['.']

/-- Fuel-driven worker for `wordGroups`; the fuel bounds the number of
slices taken and `ws.length` always suffices. -/
def wordGroupsF (n : Nat) : Nat → List (List Char) → List (List (List Char))
  | 0, _ => []
  | fuel + 1, ws =>
    if n = 0 ∨ ws = [] then []
    else (ws.take n) :: wordGroupsF n fuel (ws.drop n)

/-- Successive groups of at most `n` words, mirroring the
`range(0, len(words), max_words)` slicing loop. -/
def wordGroups (n : Nat) (ws : List (List Char)) : List (List (List Char)) :=
  wordGroupsF n ws.length ws

/-- `_split_text_into_chunks(text, max_words)`: word-bounded chunks,
each returned as a space-joined string. -/
def split_text_into_chunks (text : List Char) (max_words : Nat) : List (List Char) :=
  let words := pyWords text
  if words.isEmpty then []
  else (wordGroups max_words words).map joinSp

/-- `_fallback_summary(text, word_count)`: first five sentences of the
whitespace-normalized text, truncated to the word budget; raises
(`.error`) when there is no content. -/
def fallback_summary (text : List Char) (word_count : Nat) : Except Unit (List Char) :=
  let cleaned := normWs text
  if cleaned.isEmpty then .error ()
  else
    let sentences := sentSplit cleaned
    let candidate := joinSp (sentences.take (min sentences.length 5))
    .ok (truncate_to_word_limit candidate word_count)

/-! ## URL parsing: a model of `urllib.parse.urlsplit` and friends

Only the behaviour exercised by `normalize_wikipedia_url` is modelled:
unsafe-character removal, scheme/netloc/fragment/query splitting,
the matched-bracket check on the netloc, hostname/port extraction
(with `.hostname` lowercasing), `parse_qs` first-value lookup with
blank values dropped, `unquote_plus` (percent-escapes decoded
bytewise) and `quote`. -/

/-- The characters `urlsplit` removes before parsing
(`_UNSAFE_URL_BYTES_TO_REMOVE`). -/
def isUnsafeUrlChar (c : Char) : Bool :=
  c = '\t' || c = '\r' || c = '\n'

/-- Characters allowed in a URL scheme (`scheme_chars`). -/
def isSchemeChar (c : Char) : Bool :=
  c.isAlpha || c.isDigit || c = '+' || c = '-' || c = '.'

/-- Python `str.lower()` on one character (ASCII range, as used for
hostnames/schemes, which are ASCII in every URL the service accepts). -/
def pyCharLower (c : Char) : Char :=
  if 65 ≤ c.toNat ∧ c.toNat ≤ 90 then Char.ofNat (c.toNat + 32) else c

/-- Split a list at the first character satisfying `p`: returns the
elements before it and, when found, the elements after it
(Python `partition` / `find` + slicing). -/
def splitAtFirst (p : Char → Bool) : List Char → List Char × Option (List Char)
  | [] => ([], none)
  | c :: rest =>
    if p c then ([], some rest)
    else
      let r := splitAtFirst p rest
      (c :: r.1, r.2)

/-- `netloc.rpartition('@')[2]`: the part after the last `'@'`
(the whole string when there is none). -/
def afterLastAtSign (cs : List Char) : List Char :=
  (cs.reverse.takeWhile (fun c => c ≠ '@')).reverse

/-- Result record of `urlsplit`. -/
structure SplitResultM where
  scheme : List Char
  netloc : List Char
  path : List Char
  query : List Char
  fragment : List Char
deriving DecidableEq, Repr

/-- Scheme detection of `urlsplit`: a valid scheme prefix before the
first `':'` is split off and lowercased; otherwise the URL is unchanged
and the scheme is empty. -/
def splitSchemeM (url1 : List Char) : List Char × List Char :=
  match splitAtFirst (fun c => c = ':') url1 with
  | (before, some rest) =>
    if !before.isEmpty
        && (match before.head? with | some c => c.isAlpha | none => false)
        && before.all isSchemeChar
    then (before.map pyCharLower, rest)
    else (([] : List Char), url1)
  | (_, none) => (([] : List Char), url1)

/-- Netloc detection of `urlsplit` (`_splitnetloc`): after a leading
`"//"`, the netloc runs up to the first of `/?#`. -/
def splitNetlocM (url2 : List Char) : List Char × List Char :=
  match url2 with
  | '/' :: '/' :: rest =>
    (rest.takeWhile (fun c => ¬(c = '/' || c = '?' || c = '#')),
     rest.dropWhile (fun c => ¬(c = '/' || c = '?' || c = '#')))
  | _ => (([] : List Char), url2)

/-- `url.split(sep, 1)` when the separator occurs, else `(url, "")`
(the fragment/query split steps). -/
def splitTail (p : Char → Bool) (x : List Char) : List Char × List Char :=
  match splitAtFirst p x with
  | (a, some b) => (a, b)
  | (a, none) => (a, ([] : List Char))

/-- Model of `urllib.parse.urlsplit`: remove unsafe characters, detect a
scheme, take the netloc after `"//"` up to the first of `/?#`, reject
mismatched brackets in the netloc (`ValueError`, modelled as `none`),
then split off the fragment at the first `'#'` and the query at the
first `'?'`. -/
def urlsplitM (url0 : List Char) : Option SplitResultM :=
  let url1 := url0.filter (fun c => ¬ isUnsafeUrlChar c)
  let sp := splitSchemeM url1
  let np := splitNetlocM sp.2
  if (np.1.contains '[' && !np.1.contains ']')
      || (np.1.contains ']' && !np.1.contains '[') then none
  else
    let fq := splitTail (fun c => c = '#') np.2
    let pq := splitTail (fun c => c = '?') fq.1
    some ⟨sp.1, np.1, pq.1, pq.2, fq.2⟩

/-- `SplitResult._hostinfo`: strip userinfo at the last `'@'`; inside
brackets take up to the first `']'` (port after a later `':'`),
otherwise split host and port at the first `':'`. -/
def hostinfoM (netloc : List Char) : List Char × List Char :=
  let hi := afterLastAtSign netloc
  if hi.contains '[' then
    let bracketed := (splitAtFirst (fun c => c = '[') hi).2.getD []
    ((splitAtFirst (fun c => c = ']') bracketed).1,
     match (splitAtFirst (fun c => c = ']') bracketed).2 with
     | some portRest => (splitAtFirst (fun c => c = ':') portRest).2.getD []
     | none => [])
  else
    ((splitAtFirst (fun c => c = ':') hi).1,
     (splitAtFirst (fun c => c = ':') hi).2.getD [])

/-- `SplitResult.hostname`: the host part, lowercased; `None` when empty. -/
def hostnameM (netloc : List Char) : Option (List Char) :=
  let h := (hostinfoM netloc).1
  if h.isEmpty then none else some (h.map pyCharLower)

/-- Numeric value of a decimal digit character. -/
def digitVal (c : Char) : Nat := c.toNat - 48

/-- Decimal digit test (same characters as `str.isdigit` accepts in the
ASCII range). -/
def isDigitChar (c : Char) : Bool :=
  decide (48 ≤ c.toNat) && decide (c.toNat ≤ 57)

/-- Left-to-right decimal accumulation. -/
def parseDigitsAux : Nat → List Char → Option Nat
  | acc, [] => some acc
  | acc, c :: rest =>
    if isDigitChar c then parseDigitsAux (10 * acc + digitVal c) rest else none

/-- Parse a nonempty all-digit string as a decimal number
(`int(port, 10)`, restricted to the canonical digit-only form). -/
def parseDigits (cs : List Char) : Option Nat :=
  if cs.isEmpty then none else parseDigitsAux 0 cs

/-- `SplitResult.port`: absent port is `none`; a non-numeric or
out-of-range port raises `ValueError` (modelled as `.error`). -/
def portM (netloc : List Char) : Except Unit (Option Nat) :=
  let p := (hostinfoM netloc).2
  if p.isEmpty then .ok none
  else
    match parseDigits p with
    | some n => if n ≤ 65535 then .ok (some n) else .error ()
    | none => .error ()

/-- Split a query string on `'&'` (the `parse_qsl` pair separator). -/
def splitOnAmp : List Char → List (List Char)
  | [] => [[]]
  | c :: rest =>
    if c = '&' then [] :: splitOnAmp rest
    else
      match splitOnAmp rest with
      | [] => [[c]]
      | s :: ss => (c :: s) :: ss

/-- Hex digit test for percent-escapes. -/
def isHexDigit (c : Char) : Bool :=
  c.isDigit || ('a' ≤ c ∧ c ≤ 'f') || ('A' ≤ c ∧ c ≤ 'F')

/-- Hex digit value. -/
def hexVal (c : Char) : Nat :=
  if c.isDigit then c.toNat - 48
  else if 'a' ≤ c then c.toNat - 87
  else c.toNat - 55

/-- `urllib.parse.unquote_plus`: `'+'` becomes a space and valid
percent-escapes are decoded (bytewise; multibyte UTF-8 sequences are
not reassembled, which no theorem below depends on). -/
def unquotePlus : List Char → List Char
  | [] => []
  | '+' :: rest => ' ' :: unquotePlus rest
  | '%' :: a :: b :: rest =>
    if isHexDigit a && isHexDigit b
    then Char.ofNat (16 * hexVal a + hexVal b) :: unquotePlus rest
    else '%' :: unquotePlus (a :: b :: rest)
  | c :: rest => c :: unquotePlus rest

/-- First value for `key` in `parse_qs(query)`, i.e.
`parse_qs(query).get(key, [None])[0]`: pairs without `'='` or with an
empty raw value are dropped (`keep_blank_values=False`), names and
values are unquoted. -/
def parseQsFirst (key : List Char) : List (List Char) → Option (List Char)
  | [] => none
  | pair :: rest =>
    match splitAtFirst (fun c => c = '=') pair with
    | (k, some v) =>
      if v ≠ [] ∧ unquotePlus k = key then some (unquotePlus v)
      else parseQsFirst key rest
    | (_, none) => parseQsFirst key rest

/-- UTF-8 encoding of a code point. -/
def utf8Bytes (n : Nat) : List Nat :=
  if n < 0x80 then [n]
  else if n < 0x800 then [0xC0 + n / 0x40, 0x80 + n % 0x40]
  else if n < 0x10000 then
    [0xE0 + n / 0x1000, 0x80 + (n / 0x40) % 0x40, 0x80 + n % 0x40]
  else
    [0xF0 + n / 0x40000, 0x80 + (n / 0x1000) % 0x40,
     0x80 + (n / 0x40) % 0x40, 0x80 + n % 0x40]

/-- Uppercase hex digit, as produced by `quote`. -/
def hexUpper (n : Nat) : Char :=
  if n < 10 then Char.ofNat (48 + n) else Char.ofNat (55 + n)

/-- Characters `quote` never escapes. -/
def quoteAlwaysSafe (c : Char) : Bool :=
  c.isAlpha || c.isDigit || c = '_' || c = '.' || c = '-' || c = '~'

/-- The extra safe characters `"():'"`  passed by the normalizer. -/
def quoteSafeExtra (c : Char) : Bool :=
  c = '(' || c = ')' || c = ':' || c = '\''

/-- `urllib.parse.quote(s, safe="():'")`. -/
def quoteM (cs : List Char) : List Char :=
  (cs.map (fun c =>
    if quoteAlwaysSafe c || quoteSafeExtra c then [c]
    else ((utf8Bytes c.toNat).map
      (fun b => ['%', hexUpper (b / 16), hexUpper (b % 16)])).flatten)).flatten

/-- `title.replace(" ", "_")`. -/
def underscoreSpaces (cs : List Char) : List Char :=
  cs.map (fun c => if c = ' ' then '_' else c)

/-- Decimal digit characters of a number (for rebuilding `host:port`). -/
def natChars (n : Nat) : List Char :=
  if h : n < 10 then [Char.ofNat (48 + n)]
  else natChars (n / 10) ++ [Char.ofNat (48 + n % 10)]
termination_by n
decreasing_by
  exact Nat.div_lt_self (by omega) (by omega)

/-- `l` starts with `p`. -/
def hasStart : List Char → List Char → Bool
  | [], _ => true
  | _ :: _, [] => false
  | p :: ps, c :: cs => p = c && hasStart ps cs

/-- `l` ends with `p` (Python `str.endswith`). -/
def hasEnd (p l : List Char) : Bool :=
  hasStart p.reverse l.reverse

/-! ## `normalize_wikipedia_url` -/

/-- Failure modes of the normalizer: `URLValidationError`, or the
uncaught `ValueError` from `parsed.port` on a malformed port. -/
inductive NormErr
  | validation
  | portValue
deriving DecidableEq, Repr

/-- The canonical constituents of a normalized URL. -/
structure UrlParts where
  host : List Char
  port : Option Nat
  path : List Char
deriving DecidableEq, Repr

/-- `urlunsplit(("https", netloc, path, "", ""))` for the normalizer's
output shape. -/
def renderParts (p : UrlParts) : List Char :=
  "https://".toList ++ p.host
    ++ (match p.port with | none => [] | some n => ':' :: natChars n)
    ++ p.path

/-- Host belongs to wikipedia.org (`host == "wikipedia.org" or
host.endswith(".wikipedia.org")`). -/
def isWikiHost (host : List Char) : Bool :=
  host = "wikipedia.org".toList || hasEnd ".wikipedia.org".toList host

/-- `_validate_parsed_url`: scheme must be http/https, hostname must be
present and belong to wikipedia.org.  Returns the (lowercased) hostname
on success. -/
def validateParsedM (r : SplitResultM) : Except NormErr (List Char) :=
  if ¬(r.scheme = "http".toList ∨ r.scheme = "https".toList) then .error .validation
  else
    match hostnameM r.netloc with
    | none => .error .validation
    | some host => if isWikiHost host then .ok host else .error .validation

/-- `parsed.path or "/"`. -/
def path0Of (rpath : List Char) : List Char :=
  if rpath.isEmpty then ['/'] else rpath

/-- Strip one trailing slash unless the path is just `"/"`. -/
def stripTrailingSlash (path0 : List Char) : List Char :=
  if path0 ≠ ['/'] ∧ path0.getLast? = some '/' then path0.dropLast else path0

/-- The `/w/index.php?title=` (and root-with-`title`) rewrite to
`/wiki/<title>`. -/
def rewriteIndex (path1 query : List Char) : List Char × List Char :=
  if query ≠ [] then
    match parseQsFirst "title".toList (splitOnAmp query) with
    | some title =>
      if title ≠ [] then
        ("/wiki/".toList ++ quoteM (underscoreSpaces title), ([] : List Char))
      else (path1, query)
    | none => (path1, query)
  else (path1, query)

/-- Drop the default ports `0`, `80`, `443`. -/
def keptPortOf (port0 : Option Nat) : Option Nat :=
  match port0 with
  | some n => if n ≠ 0 ∧ n ≠ 80 ∧ n ≠ 443 then some n else none
  | none => none

/-- Final path handling of the normalizer: rewrite index/root paths,
reject a root path with a leftover query, require a `/wiki/` path. -/
def finishPath (path1 query : List Char) : Except NormErr (List Char) :=
  if path1 = "/w/index.php".toList ∨ path1 = "/w/index.php/".toList
      ∨ path1 = ['/'] then
    let rewritten := rewriteIndex path1 query
    if rewritten.1 = ['/'] ∧ rewritten.2 ≠ [] then .error .validation
    else if ¬ hasStart "/wiki/".toList rewritten.1 then .error .validation
    else .ok rewritten.1
  else
    if ¬ hasStart "/wiki/".toList path1 then .error .validation
    else .ok path1

/-- `normalize_wikipedia_url`, producing the structured parts of the
canonical URL.  Mirrors the source: parse (parse failure is caught and
re-raised as `URLValidationError`), validate scheme/host, read the port
(an invalid port raises an uncaught `ValueError`), drop default ports,
strip the trailing slash, rewrite `/w/index.php?title=` (and root with
`title`) to `/wiki/<title>`, reject a root path with a query, require a
`/wiki/` path, and drop query and fragment. -/
def normalizeParts (url : List Char) : Except NormErr UrlParts :=
  match urlsplitM url with
  | none => .error .validation
  | some r =>
    match validateParsedM r with
    | .error e => .error e
    | .ok host =>
      match portM r.netloc with
      | .error _ => .error .portValue
      | .ok port0 =>
        match finishPath (stripTrailingSlash (path0Of r.path)) r.query with
        | .error e => .error e
        | .ok pth => .ok ⟨host, keptPortOf port0, pth⟩

/-- `normalize_wikipedia_url` as a string-to-string function. -/
def normalize_wikipedia_url (url : List Char) : Except NormErr (List Char) :=
  match normalizeParts url with
  | .error e => .error e
  | .ok p => .ok (renderParts p)

/-! ## Generation engine: `_invoke_with_fallback` and the pipelines

`_invoke_llm` performs network calls with internal retries; its
observable outcome per occasion (success text, or `SummarizationError`
after exhausting attempts) is supplied by an oracle indexed by a call
counter that the pipeline threads through.  `_extract_structured_text`
(JSON field extraction with raw-text degradation) is abstracted as a
function parameter `extract`; every theorem below holds for an
arbitrary `extract`. -/

/-- Outcome of one `_invoke_with_fallback` occasion: the primary
model's result and the fallback model's result were it tried
(`none` = `SummarizationError` after exhausting retries). -/
structure StepOutcome where
  primaryResult : Option (List Char)
  fallbackResult : Option (List Char)

/-- Oracle giving the outcome of each invocation occasion in order. -/
abbrev LLMOracle := Nat → StepOutcome

/-- Generation configuration: whether `_get_fallback_model()` returns a
usable distinct fallback model. -/
structure LLMCfg where
  fallbackConfigured : Bool

def SUMMARY_ORIGIN_LLM : String := "llm"
def SUMMARY_ORIGIN_LLM_FALLBACK : String := "llm_fallback"
def SUMMARY_ORIGIN_FALLBACK : String := "fallback"
def TRANSLATION_ORIGIN_SKIPPED : String := "skipped"
def TRANSLATION_ORIGIN_DISABLED : String := "disabled"
def TRANSLATION_ORIGIN_UNAVAILABLE : String := "unavailable"
def TRANSLATION_ORIGIN_ERROR : String := "error"

/-- `_invoke_with_fallback`: try the primary model; on
`SummarizationError` retry once with the fallback model when one is
configured, tagging the result with `fallbackOrigin`; otherwise
re-raise. -/
def invoke_with_fallback (o : LLMOracle) (cfg : LLMCfg)
    (primaryOrigin fallbackOrigin : String) (n : Nat) :
    Except Unit ((List Char × String) × Nat) :=
  match (o n).primaryResult with
  | some t => .ok ((t, primaryOrigin), n + 1)
  | none =>
    if cfg.fallbackConfigured then
      match (o n).fallbackResult with
      | some t => .ok ((t, fallbackOrigin), n + 1)
      | none => .error ()
    else .error ()

/-- `_map_chunk_word_target`: `int(final * 1.5 / cnt)` clamped to
`[60, 200]` (`final` returned unclamped when `cnt <= 0`). -/
def map_chunk_word_target (final_word_count chunk_count : Nat) : Nat :=
  if chunk_count = 0 then final_word_count
  else min 200 (max 60 (3 * final_word_count / (2 * chunk_count)))

/-- `_summarize_single_pass`. -/
def summarize_single_pass (extract : List Char → List Char)
    (o : LLMOracle) (cfg : LLMCfg) (text : List Char) (word_count n : Nat) :
    Except Unit ((List Char × String) × Nat) :=
  match invoke_with_fallback o cfg SUMMARY_ORIGIN_LLM SUMMARY_ORIGIN_LLM_FALLBACK n with
  | .error e => .error e
  | .ok ((raw, origin), n') =>
    .ok ((truncate_to_word_limit (extract raw) word_count, origin), n')

/-- The per-chunk loop of `_summarize_map_reduce`: summarize each chunk
independently, collecting the truncated partial summaries and their
origins. -/
def map_chunks (extract : List Char → List Char) (o : LLMOracle) (cfg : LLMCfg)
    (chunk_target : Nat) :
    List (List Char) → Nat → Except Unit ((List (List Char) × List String) × Nat)
  | [], n => .ok (([], []), n)
  | _chunk :: rest, n =>
    match invoke_with_fallback o cfg SUMMARY_ORIGIN_LLM SUMMARY_ORIGIN_LLM_FALLBACK n with
    | .error e => .error e
    | .ok ((raw, origin), n') =>
      match map_chunks extract o cfg chunk_target rest n' with
      | .error e => .error e
      | .ok ((ps, os), n'') =>
        .ok ((truncate_to_word_limit (extract raw) chunk_target :: ps, origin :: os), n'')

/-- `_summarize_map_reduce`: chunk the cleaned text (800-word chunks;
one chunk degrades to single-pass), summarize each chunk, reduce, and
tag the final summary `llm_fallback` when any step used the fallback
model. -/
def summarize_map_reduce (extract : List Char → List Char)
    (o : LLMOracle) (cfg : LLMCfg) (text : List Char) (word_count n : Nat) :
    Except Unit ((List Char × String) × Nat) :=
  let cleaned := normWs text
  let chunks := split_text_into_chunks cleaned 800
  if chunks.length ≤ 1 then summarize_single_pass extract o cfg cleaned word_count n
  else
    let chunk_target := map_chunk_word_target word_count chunks.length
    match map_chunks extract o cfg chunk_target chunks n with
    | .error e => .error e
    | .ok ((_partialSummaries, origins), n') =>
      match invoke_with_fallback o cfg SUMMARY_ORIGIN_LLM SUMMARY_ORIGIN_LLM_FALLBACK n' with
      | .error e => .error e
      | .ok ((raw, reduceOrigin), n'') =>
        let final_origin :=
          if (origins ++ [reduceOrigin]).contains SUMMARY_ORIGIN_LLM_FALLBACK
          then SUMMARY_ORIGIN_LLM_FALLBACK else SUMMARY_ORIGIN_LLM
        .ok ((truncate_to_word_limit (extract raw) word_count, final_origin), n'')

/-- `summarize_text`: without a usable credential, extractive fallback
with origin `fallback`; otherwise map-reduce for sources of at least
1200 words and single-pass below, degrading to the extractive fallback
on `SummarizationError`. -/
def summarize_text (extract : List Char → List Char)
    (o : LLMOracle) (cfg : LLMCfg) (available : Bool)
    (text : List Char) (word_count n : Nat) :
    Except Unit ((List Char × String) × Nat) :=
  if ¬available then
    match fallback_summary text word_count with
    | .error e => .error e
    | .ok fb => .ok ((fb, SUMMARY_ORIGIN_FALLBACK), n)
  else
    let cleaned := normWs text
    let attempt :=
      if 1200 ≤ (pyWords cleaned).length
      then summarize_map_reduce extract o cfg cleaned word_count n
      else summarize_single_pass extract o cfg cleaned word_count n
    match attempt with
    | .error _ =>
      match fallback_summary text word_count with
      | .error e => .error e
      | .ok fb => .ok ((fb, SUMMARY_ORIGIN_FALLBACK), n)
    | .ok ((s0, origin), n') =>
      .ok ((truncate_to_word_limit s0 word_count, origin), n')

/-! ## Portuguese detection and translation -/

/-- Characters matched by `PORTUGUESE_WORD_RE = [a-záàâãéêíóôõúç]+`
(on the lowercased text). -/
def isPtWordChar (c : Char) : Bool :=
  ('a' ≤ c ∧ c ≤ 'z') || c = 'á' || c = 'à' || c = 'â' || c = 'ã' || c = 'é'
    || c = 'ê' || c = 'í' || c = 'ó' || c = 'ô' || c = 'õ' || c = 'ú' || c = 'ç'

/-- Worker for `ptWordRuns` (`findall` of maximal matching runs). -/
def ptRunsAux : List Char → List Char → List (List Char)
  | acc, [] => if acc.isEmpty then [] else [acc.reverse]
  | acc, c :: rest =>
    if isPtWordChar c then ptRunsAux (c :: acc) rest
    else if acc.isEmpty then ptRunsAux [] rest
    else acc.reverse :: ptRunsAux [] rest

/-- `PORTUGUESE_WORD_RE.findall(cleaned)`. -/
def ptWordRuns (cs : List Char) : List (List Char) :=
  ptRunsAux [] cs

/-- `PORTUGUESE_STOPWORDS`. -/
def PORTUGUESE_STOPWORDS : List (List Char) :=
  (["a", "o", "os", "as", "um", "uma", "uns", "umas", "de", "do", "da", "dos",
    "das", "em", "no", "na", "nos", "nas", "por", "para", "com", "e", "que",
    "como", "ou", "não", "mais", "menos", "já", "há", "se", "sua", "seu",
    "suas", "seus", "entre", "ao", "à", "às", "aos", "sobre", "também", "foi",
    "era", "ser", "são", "está", "estão", "tem", "têm", "pelo", "pela",
    "pelos", "pelas"] : List String).map String.toList

/-- `PORTUGUESE_STRONG_STOPWORDS`: stopwords of length at least 2. -/
def PORTUGUESE_STRONG_STOPWORDS : List (List Char) :=
  PORTUGUESE_STOPWORDS.filter (fun w => 2 ≤ w.length)

/-- `_looks_like_portuguese`: lowercased whitespace-normalized text must
be at least 40 characters, contain at least 5 word tokens, at least 3
strong-stopword hits, and a stopword ratio of at least 8 % (the float
comparison `hits / max(1, len) >= 0.08` rendered as an exact rational
comparison). -/
def looks_like_portuguese (text : List Char) : Bool :=
  let cleaned := (normWs text).map pyCharLower
  if cleaned.length < 40 then false
  else
    let words := ptWordRuns cleaned
    if words.length < 5 then false
    else
      let hits := (words.filter (fun w => PORTUGUESE_STRONG_STOPWORDS.contains w)).length
      decide (3 ≤ hits) && decide (8 * max 1 words.length ≤ 100 * hits)

/-- `translate_summary_to_portuguese`: disabled → `(None, "disabled")`;
already Portuguese → echo with `"skipped"`; no credential →
`(None, "unavailable")`; otherwise invoke with fallback (an exhausted
failure re-raises `SummarizationError`). -/
def translate_summary_to_portuguese (extract : List Char → List Char)
    (o : LLMOracle) (cfg : LLMCfg) (enabled available : Bool)
    (summary_en : List Char) (word_count n : Nat) :
    Except Unit ((Option (List Char) × String) × Nat) :=
  if ¬enabled then .ok ((none, TRANSLATION_ORIGIN_DISABLED), n)
  else if looks_like_portuguese summary_en then
    .ok ((some summary_en, TRANSLATION_ORIGIN_SKIPPED), n)
  else if ¬available then .ok ((none, TRANSLATION_ORIGIN_UNAVAILABLE), n)
  else
    match invoke_with_fallback o cfg SUMMARY_ORIGIN_LLM SUMMARY_ORIGIN_LLM_FALLBACK n with
    | .error e => .error e
    | .ok ((raw, origin), n') =>
      .ok ((some (truncate_to_word_limit (extract raw) word_count), origin), n')

/-! ## Cache / store: `repositories/summaries.py`

The store is a list of records plus a surrogate-key counter; committing
an insert raises `IntegrityError` exactly when a record with the same
`(url, word_count)` key already exists (the unique constraint). -/

/-- A persisted summary record. -/
structure SummaryRec where
  id : Nat
  url : List Char
  word_count : Nat
  summary : List Char
  summary_origin : String
  summary_pt : Option (List Char)
  summary_pt_origin : String
deriving DecidableEq, Repr

/-- The store behind a session. -/
structure Store where
  recs : List SummaryRec
  nextId : Nat
deriving DecidableEq, Repr

/-- `get_by_url_and_word_count`. -/
def get_by_url_and_word_count (st : Store) (url : List Char) (wc : Nat) :
    Option SummaryRec :=
  st.recs.find? (fun r => r.url == url && r.word_count == wc)

/-- `create_summary`: attempt the insert; on the uniqueness-constraint
violation roll back (store unchanged), re-read the existing record and
return it with `created_new = False`, re-raising (`.error`) only when
the re-read finds nothing. -/
def create_summary (st : Store) (url : List Char) (summary_text : List Char)
    (summary_pt : Option (List Char)) (word_count : Nat)
    (summary_origin summary_pt_origin : String) :
    Except Unit ((SummaryRec × Bool) × Store) :=
  let rec0 : SummaryRec :=
    ⟨st.nextId, url, word_count, summary_text, summary_origin,
      summary_pt, summary_pt_origin⟩
  match get_by_url_and_word_count st url word_count with
  | none => .ok ((rec0, true), ⟨st.recs ++ [rec0], st.nextId + 1⟩)
  | some _ =>
    match get_by_url_and_word_count st url word_count with
    | some existing => .ok ((existing, false), st)
    | none => .error ()

/-! ## Orchestrator: `get_or_create_summary`

The Wikipedia fetch, the summarization step and the translation step
are injected as functions (the real wiring passes
`get_wikipedia_article_text`, `summarize_text` and
`translate_summary_to_portuguese`); the result carries how many times
the summarization and translation steps ran during the call. -/

/-- The `source` literal of the public contract. -/
inductive Source
  | generated
  | cache
deriving DecidableEq, Repr

/-- Orchestrator failures: `InvalidInputError`, `UpstreamServiceError`,
or an exception escaping uncaught. -/
inductive OrchErr
  | invalidInput
  | upstream
  | uncaught
deriving DecidableEq, Repr

/-- Failures of `get_wikipedia_article_text`. -/
inductive FetchFail
  | invalid
  | scraping
deriving DecidableEq, Repr

/-- `SummaryOrchestrator.get_or_create_summary`: normalize → cache
lookup (hit short-circuits) → fetch → summarize → best-effort translate
(`SummarizationError` becomes `summary_pt=None`,
`summary_pt_origin="error"`) → insert → `source` is `generated` exactly
when the insert created a new row. -/
def get_or_create_summary
    (fetchArticle : List Char → Except FetchFail (List Char))
    (summarizeF : List Char → Nat → Except Unit (List Char × String))
    (translateF : List Char → Nat → Except Unit (Option (List Char) × String))
    (st : Store) (url : List Char) (word_count : Nat) :
    Except OrchErr ((SummaryRec × Source × Store) × (Nat × Nat)) :=
  match normalize_wikipedia_url url with
  | .error .validation => .error .invalidInput
  | .error .portValue => .error .uncaught
  | .ok normalized_url =>
    match get_by_url_and_word_count st normalized_url word_count with
    | some existing => .ok ((existing, .cache, st), (0, 0))
    | none =>
      match fetchArticle normalized_url with
      | .error .invalid => .error .invalidInput
      | .error .scraping => .error .upstream
      | .ok article_text =>
        match summarizeF article_text word_count with
        | .error _ => .error .upstream
        | .ok (summary_text, origin) =>
          let translated :=
            match translateF summary_text word_count with
            | .ok (t, pt_origin) => (t, pt_origin)
            | .error _ => (none, TRANSLATION_ORIGIN_ERROR)
          match create_summary st normalized_url summary_text translated.1
              word_count origin translated.2 with
          | .error _ => .error .uncaught
          | .ok ((summary_obj, created_new), st') =>
            .ok ((summary_obj, if created_new then .generated else .cache, st'), (1, 1))

/-! ## Article fetcher: `_fetch_wikipedia_html`

The HTTP transport is an oracle from URL to response; `urljoin` (RFC
3986 reference resolution of the `Location` header against the current
URL) is abstracted as a function parameter `join` — every theorem holds
for an arbitrary `join`.  The redirect loop runs `max_redirects + 1`
times, re-validating every redirect target through the normalizer. -/

/-- One HTTP exchange: a redirect (with optional `Location`), a
successful response streamed as byte chunks, or any
`httpx.HTTPError` (network failure or `raise_for_status`). -/
inductive HttpResp
  | redirect (location : Option (List Char))
  | success (chunks : List (List Nat))
  | httpError
deriving DecidableEq

/-- Failures of the fetcher: re-raised `URLValidationError`,
`ScrapingError`, or the uncaught port `ValueError`. -/
inductive FetchErr
  | urlValidation
  | scraping
  | portValue
deriving DecidableEq, Repr

/-- `_read_response_limited`'s accumulation loop. -/
def readLimitedAux (maxBytes : Nat) : List Nat → List (List Nat) → Except FetchErr (List Nat)
  | acc, [] => .ok acc
  | acc, chunk :: rest =>
    let acc' := acc ++ chunk
    if maxBytes < acc'.length then .error .scraping
    else readLimitedAux maxBytes acc' rest

/-- `_read_response_limited`: a nonpositive limit or exceeding the byte
ceiling is a `ScrapingError`. -/
def read_response_limited (chunks : List (List Nat)) (maxBytes : Nat) :
    Except FetchErr (List Nat) :=
  if maxBytes = 0 then .error .scraping
  else readLimitedAux maxBytes [] chunks

/-- The redirect-following loop of `_fetch_wikipedia_html`; `fuel` is
the number of remaining loop iterations (`max_redirects + 1` at entry),
and running out of fuel is the too-many-redirects `ScrapingError`. -/
def fetchLoop (http : List Char → HttpResp)
    (join : List Char → List Char → List Char) (maxBytes : Nat) :
    Nat → List Char → Except FetchErr (List Nat)
  | 0, _ => .error .scraping
  | fuel + 1, current =>
    match http current with
    | .httpError => .error .scraping
    | .success chunks => read_response_limited chunks maxBytes
    | .redirect none => .error .scraping
    | .redirect (some location) =>
      match normalize_wikipedia_url (join current location) with
      | .error .validation => .error .urlValidation
      | .error .portValue => .error .portValue
      | .ok normalized => fetchLoop http join maxBytes fuel normalized

/-- `_fetch_wikipedia_html`. -/
def fetch_wikipedia_html (http : List Char → HttpResp)
    (join : List Char → List Char → List Char)
    (maxBytes maxRedirects : Nat) (url : List Char) : Except FetchErr (List Nat) :=
  fetchLoop http join maxBytes (maxRedirects + 1) url

/-- Whether the redirect target parses with a host belonging to
wikipedia.org (the property the security boundary checks). -/
def targetHostIsWikipedia (t : List Char) : Bool :=
  match urlsplitM t with
  | none => false
  | some r =>
    match hostnameM r.netloc with
    | none => false
    | some h => isWikiHost h

/-- The fetch of `u` reaches, within `n` loop iterations, a redirect
whose target host is not wikipedia.org or a subdomain of it. -/
inductive ReachesForeignRedirect (http : List Char → HttpResp)
    (join : List Char → List Char → List Char) : List Char → Nat → Prop
  | here {u loc n} : http u = .redirect (some loc) →
      targetHostIsWikipedia (join u loc) = false →
      ReachesForeignRedirect http join u (n + 1)
  | step {u loc v n} : http u = .redirect (some loc) →
      normalize_wikipedia_url (join u loc) = .ok v →
      ReachesForeignRedirect http join v n →
      ReachesForeignRedirect http join u (n + 1)

/-! ## Lemmas about `pyWords`, `joinSp` and friends -/

theorem pyWordsAux_wf (cs : List Char) : ∀ acc, (∀ c ∈ acc, isSpace c = false) →
    ∀ w ∈ pyWordsAux acc cs, w ≠ [] ∧ ∀ c ∈ w, isSpace c = false := by
  induction cs with
  | nil =>
    intro acc hacc w hw
    simp only [pyWordsAux] at hw
    split at hw
    · simp at hw
    · rename_i hne
      simp only [List.mem_singleton] at hw
      subst hw
      refine ⟨?_, ?_⟩
      · simp only [ne_eq, List.reverse_eq_nil_iff]
        intro h
        rw [h] at hne
        simp at hne
      · intro c hc
        exact hacc c (List.mem_reverse.mp hc)
  | cons c rest ih =>
    intro acc hacc w hw
    simp only [pyWordsAux] at hw
    by_cases hsp : isSpace c = true
    · rw [if_pos hsp] at hw
      split at hw
      · exact ih [] (by simp) w hw
      · rename_i hne
        rcases List.mem_cons.mp hw with h | h
        · subst h
          refine ⟨?_, ?_⟩
          · simp only [ne_eq, List.reverse_eq_nil_iff]
            intro h
            rw [h] at hne
            simp at hne
          · intro c' hc'
            exact hacc c' (List.mem_reverse.mp hc')
        · exact ih [] (by simp) w h
    · rw [if_neg hsp] at hw
      refine ih (c :: acc) ?_ w hw
      intro c' hc'
      rcases List.mem_cons.mp hc' with h | h
      · subst h
        simpa using hsp
      · exact hacc c' h

theorem pyWords_wf (cs : List Char) :
    ∀ w ∈ pyWords cs, w ≠ [] ∧ ∀ c ∈ w, isSpace c = false :=
  pyWordsAux_wf cs [] (by simp)

theorem pyWordsAux_nonspace_chunk (w : List Char) (hw : ∀ c ∈ w, isSpace c = false) :
    ∀ acc cs, pyWordsAux acc (w ++ cs) = pyWordsAux (w.reverse ++ acc) cs := by
  induction w with
  | nil => intro acc cs; simp
  | cons c w' ih =>
    intro acc cs
    have hc : isSpace c = false := hw c (by simp)
    simp only [List.cons_append, pyWordsAux, hc, List.append_eq]
    rw [if_neg (by simp [hc])]
    rw [ih (fun c' hc' => hw c' (by simp [hc'])) (c :: acc) cs]
    simp

theorem joinSp_cons_ne (w : List Char) (ws : List (List Char)) (h : ws ≠ []) :
    joinSp (w :: ws) = w ++ ' ' :: joinSp ws := by
  cases ws with
  | nil => exact absurd rfl h
  | cons a l => rfl

theorem pyWords_joinSp (ws : List (List Char))
    (h : ∀ w ∈ ws, w ≠ [] ∧ ∀ c ∈ w, isSpace c = false) :
    pyWords (joinSp ws) = ws := by
  induction ws with
  | nil => rfl
  | cons w ws' ih =>
    have hw := h w (by simp)
    cases ws' with
    | nil =>
      show pyWordsAux [] (joinSp [w]) = [w]
      have : joinSp [w] = w ++ [] := by simp [joinSp]
      rw [this, pyWordsAux_nonspace_chunk w hw.2]
      simp only [pyWordsAux, List.append_nil]
      rw [if_neg]
      · simp
      · simp only [List.isEmpty_eq_true, List.reverse_eq_nil_iff]
        exact hw.1
    | cons a l =>
      rw [joinSp_cons_ne w (a :: l) (by simp)]
      show pyWordsAux [] (w ++ ' ' :: joinSp (a :: l)) = w :: (a :: l)
      rw [pyWordsAux_nonspace_chunk w hw.2]
      simp only [pyWordsAux, List.append_nil]
      rw [if_pos (by decide : isSpace ' ' = true)]
      rw [if_neg (by simp only [List.isEmpty_eq_true, List.reverse_eq_nil_iff]; exact hw.1)]
      simp only [List.reverse_reverse, List.cons.injEq, true_and]
      exact ih (fun w' hw' => h w' (by simp [hw']))

theorem joinSp_append (ws1 ws2 : List (List Char)) (h1 : ws1 ≠ []) (h2 : ws2 ≠ []) :
    joinSp (ws1 ++ ws2) = joinSp ws1 ++ ' ' :: joinSp ws2 := by
  induction ws1 with
  | nil => exact absurd rfl h1
  | cons w ws' ih =>
    cases ws' with
    | nil =>
      rw [List.cons_append, List.nil_append, joinSp_cons_ne w ws2 h2]
      simp [joinSp]
    | cons a l =>
      rw [List.cons_append, joinSp_cons_ne w ((a :: l) ++ ws2) (by simp),
        joinSp_cons_ne w (a :: l) (by simp), ih (by simp)]
      simp

theorem wordGroupsF_flatten (n : Nat) (hn : 0 < n) :
    ∀ (fuel : Nat) (ws : List (List Char)), ws.length ≤ fuel →
      (wordGroupsF n fuel ws).flatten = ws := by
  intro fuel
  induction fuel with
  | zero =>
    intro ws h
    cases ws with
    | nil => rfl
    | cons a l => simp at h
  | succ fuel ih =>
    intro ws h
    show (if n = 0 ∨ ws = [] then []
      else (ws.take n) :: wordGroupsF n fuel (ws.drop n)).flatten = ws
    split
    · rename_i hcond
      rcases hcond with h0 | hnil
      · omega
      · simp [hnil]
    · rename_i hcond
      have hwsne : ws ≠ [] := fun he => hcond (Or.inr he)
      rw [List.flatten_cons, ih (ws.drop n) ?_]
      · exact List.take_append_drop n ws
      · have hlen : (ws.drop n).length = ws.length - n := List.length_drop n ws
        have : 1 ≤ ws.length := by
          cases ws with
          | nil => exact absurd rfl hwsne
          | cons a l => simp
        omega

theorem wordGroups_flatten (n : Nat) (hn : 0 < n) (ws : List (List Char)) :
    (wordGroups n ws).flatten = ws :=
  wordGroupsF_flatten n hn ws.length ws le_rfl

theorem wordGroupsF_mem (n : Nat) (hn : 0 < n) :
    ∀ (fuel : Nat) (ws : List (List Char)), ws.length ≤ fuel →
      ∀ g ∈ wordGroupsF n fuel ws, g.length ≤ n ∧ g ≠ [] ∧ ∀ w ∈ g, w ∈ ws := by
  intro fuel
  induction fuel with
  | zero =>
    intro ws h g hg
    cases ws with
    | nil => simp [wordGroupsF] at hg
    | cons a l => simp at h
  | succ fuel ih =>
    intro ws h g hg
    rw [show wordGroupsF n (fuel + 1) ws = if n = 0 ∨ ws = [] then []
      else (ws.take n) :: wordGroupsF n fuel (ws.drop n) from rfl] at hg
    split at hg
    · simp at hg
    · rename_i hcond
      have hn0 : n ≠ 0 := fun he => hcond (Or.inl he)
      have hwsne : ws ≠ [] := fun he => hcond (Or.inr he)
      rcases List.mem_cons.mp hg with hgt | hgr
      · subst hgt
        refine ⟨?_, ?_, ?_⟩
        · simp [List.length_take]
        · simp only [ne_eq, List.take_eq_nil_iff]
          push_neg
          exact ⟨hn0, hwsne⟩
        · intro w hw
          exact List.take_subset n ws hw
      · have hlen : (ws.drop n).length = ws.length - n := List.length_drop n ws
        have h1 : 1 ≤ ws.length := by
          cases ws with
          | nil => exact absurd rfl hwsne
          | cons a l => simp
        have := ih (ws.drop n) (by omega) g hgr
        exact ⟨this.1, this.2.1, fun w hw => List.drop_subset n ws (this.2.2 w hw)⟩

theorem wordGroups_mem (n : Nat) (hn : 0 < n) (ws : List (List Char))
    (g : List (List Char)) (hg : g ∈ wordGroups n ws) :
    g.length ≤ n ∧ g ≠ [] ∧ ∀ w ∈ g, w ∈ ws :=
  wordGroupsF_mem n hn ws.length ws le_rfl g hg

theorem flatten_ne_nil_of_groups (gs : List (List (List Char))) (hne : gs ≠ [])
    (h : ∀ g ∈ gs, g ≠ []) : gs.flatten ≠ [] := by
  cases gs with
  | nil => exact absurd rfl hne
  | cons g gs' =>
    have hg : g ≠ [] := h g (by simp)
    simp only [List.flatten_cons, ne_eq, List.append_eq_nil]
    intro hc
    exact hg hc.1

theorem joinSp_map_joinSp (gs : List (List (List Char))) (h : ∀ g ∈ gs, g ≠ []) :
    joinSp (gs.map joinSp) = joinSp gs.flatten := by
  induction gs with
  | nil => rfl
  | cons g gs' ih =>
    cases hgs' : gs' with
    | nil => simp [joinSp]
    | cons a l =>
      subst hgs'
      have hg : g ≠ [] := h g (by simp)
      have hflne : (a :: l).flatten ≠ [] :=
        flatten_ne_nil_of_groups (a :: l) (by simp)
          (fun g' hg' => h g' (List.mem_cons_of_mem _ hg'))
      have hmapne : (a :: l).map joinSp ≠ [] := by simp
      rw [List.map_cons, joinSp_cons_ne _ _ hmapne,
        ih (fun g' hg' => h g' (List.mem_cons_of_mem _ hg'))]
      have hfc : (g :: a :: l).flatten = g ++ (a :: l).flatten := by simp
      rw [hfc, joinSp_append g ((a :: l).flatten) hg hflne]

/-- C5: for every text and positive `n`, the chunks of
`split_into_chunks(text, n)`, space-joined in order, reproduce exactly the
whitespace-split word sequence of the text; every chunk has at most `n`
words; and empty (or whitespace-only) input yields no chunks. -/
theorem C5_split_into_chunks_spec (text : List Char) (n : Nat) (hn : 0 < n) :
    pyWords (joinSp (split_text_into_chunks text n)) = pyWords text ∧
    (∀ chunk ∈ split_text_into_chunks text n, (pyWords chunk).length ≤ n) ∧
    (pyWords text = [] → split_text_into_chunks text n = []) := by
  simp only [split_text_into_chunks]
  by_cases hw : (pyWords text).isEmpty
  · rw [if_pos hw]
    have hnil : pyWords text = [] := by simpa using hw
    refine ⟨?_, ?_, ?_⟩
    · rw [hnil]; rfl
    · intro chunk hchunk; simp at hchunk
    · intro _; rfl
  · rw [if_neg hw]
    have hne : pyWords text ≠ [] := by simpa using hw
    have hwf := pyWords_wf text
    have hgne : ∀ g ∈ wordGroups n (pyWords text), g ≠ [] :=
      fun g hg => (wordGroups_mem n hn _ g hg).2.1
    refine ⟨?_, ?_, ?_⟩
    · rw [joinSp_map_joinSp _ hgne, wordGroups_flatten n hn]
      exact pyWords_joinSp _ hwf
    · intro chunk hchunk
      rcases List.mem_map.mp hchunk with ⟨g, hg, rfl⟩
      have hmem := wordGroups_mem n hn _ g hg
      have hrt : pyWords (joinSp g) = g :=
        pyWords_joinSp g (fun w hwmem => hwf w (hmem.2.2 w hwmem))
      rw [hrt]
      exact hmem.1
    · intro h
      exact absurd h hne

/-- Witness for C5 at a concrete input. -/
theorem C5_split_into_chunks_spec_witness :
    0 < 2 ∧
    (pyWords (joinSp (split_text_into_chunks "one two three four five".toList 2)) =
        pyWords "one two three four five".toList ∧
      (∀ chunk ∈ split_text_into_chunks "one two three four five".toList 2,
        (pyWords chunk).length ≤ 2) ∧
      (pyWords "one two three four five".toList = [] →
        split_text_into_chunks "one two three four five".toList 2 = [])) :=
  ⟨by decide, C5_split_into_chunks_spec "one two three four five".toList 2 (by decide)⟩

/-! ## Lemmas for `_truncate_to_word_limit` -/

theorem pyWordsAux_ne_nil (cs : List Char) : ∀ acc, acc ≠ [] → pyWordsAux acc cs ≠ [] := by
  induction cs with
  | nil =>
    intro acc h
    simp only [pyWordsAux]
    rw [if_neg (by simpa using h)]
    simp
  | cons c rest ih =>
    intro acc h
    simp only [pyWordsAux]
    by_cases hsp : isSpace c = true
    · rw [if_pos hsp, if_neg (by simpa using h)]
      simp
    · rw [if_neg hsp]
      exact ih (c :: acc) (by simp)

theorem pyWordsAux_length_append (t : List Char) : ∀ cs acc,
    (pyWordsAux acc cs).length ≤ (pyWordsAux acc (cs ++ t)).length := by
  intro cs
  induction cs with
  | nil =>
    intro acc
    simp only [List.nil_append, pyWordsAux]
    split
    · simp
    · rename_i h
      have hne : pyWordsAux acc t ≠ [] := pyWordsAux_ne_nil t acc (by simpa using h)
      have := List.length_pos.mpr hne
      simpa using this
  | cons c rest ih =>
    intro acc
    simp only [List.cons_append, pyWordsAux]
    by_cases hsp : isSpace c = true
    · rw [if_pos hsp, if_pos hsp]
      split
      · exact ih []
      · exact Nat.succ_le_succ (ih [])
    · rw [if_neg hsp, if_neg hsp]
      exact ih (c :: acc)

theorem pyWords_length_of_front (p t : List Char) :
    (pyWords p).length ≤ (pyWords (p ++ t)).length :=
  pyWordsAux_length_append t p []

theorem sentAux_ne_nil (cs : List Char) : ∀ mode acc, sentAux mode acc cs ≠ [] := by
  induction cs with
  | nil =>
    intro mode acc
    cases mode <;> simp [sentAux]
  | cons c rest ih =>
    intro mode acc
    cases mode
    · simp only [sentAux]
      split
      · simp
      · exact ih false (c :: acc)
    · simp only [sentAux]
      split
      · exact ih true []
      · exact ih false [c]

theorem pyWordsAux_append_one_space (c0 : Char) (hc : isSpace c0 = true) (y : List Char) :
    ∀ x acc, pyWordsAux acc (x ++ c0 :: y) = pyWordsAux acc x ++ pyWordsAux [] y := by
  intro x
  induction x with
  | nil =>
    intro acc
    simp only [List.nil_append, pyWordsAux]
    rw [if_pos hc]
    split
    · simp
    · simp
  | cons a x' ih =>
    intro acc
    simp only [List.cons_append, pyWordsAux, List.append_eq]
    by_cases hsp : isSpace a = true
    · rw [if_pos hsp, if_pos hsp]
      split
      · exact ih []
      · rw [List.cons_append, ih []]
    · rw [if_neg hsp, if_neg hsp]
      exact ih (a :: acc)

theorem pyWords_cons_space (c : Char) (hc : isSpace c = true) (y : List Char) :
    pyWords (c :: y) = pyWords y := by
  simp [pyWords, pyWordsAux, hc]

theorem joinSp_dropLast_front (l : List (List Char)) :
    ∃ t, joinSp l.dropLast ++ t = joinSp l := by
  rcases List.eq_nil_or_concat l with h | ⟨l', a, h⟩
  · subst h
    exact ⟨[], rfl⟩
  · subst h
    rw [List.concat_eq_append, List.dropLast_concat]
    cases l' with
    | nil => exact ⟨a, by simp [joinSp]⟩
    | cons b m =>
      refine ⟨' ' :: joinSp [a], ?_⟩
      rw [joinSp_append (b :: m) [a] (by simp) (by simp)]

theorem pyWords_dropWhile_space (cs : List Char) :
    pyWords (cs.dropWhile isSpace) = pyWords cs := by
  induction cs with
  | nil => rfl
  | cons c rest ih =>
    simp only [List.dropWhile_cons]
    split
    · rename_i hsp
      rw [ih, pyWords_cons_space c hsp]
    · rfl

theorem pyWordsAux_all_space (s : List Char) (hs : ∀ c ∈ s, isSpace c = true) :
    ∀ acc, pyWordsAux acc s = pyWordsAux acc [] := by
  induction s with
  | nil => intro acc; rfl
  | cons c rest ih =>
    intro acc
    have hc : isSpace c = true := hs c (by simp)
    have ihr := ih (fun c' hc' => hs c' (by simp [hc']))
    simp only [pyWordsAux]
    rw [if_pos hc]
    split
    · rw [ihr []]
      rfl
    · rw [ihr []]
      simp [pyWordsAux]

theorem pyWordsAux_append_all_space (s : List Char) (hs : ∀ c ∈ s, isSpace c = true) :
    ∀ cs acc, pyWordsAux acc (cs ++ s) = pyWordsAux acc cs := by
  intro cs
  induction cs with
  | nil =>
    intro acc
    simp only [List.nil_append]
    exact pyWordsAux_all_space s hs acc
  | cons c rest ih =>
    intro acc
    simp only [List.cons_append, pyWordsAux, List.append_eq]
    by_cases hsp : isSpace c = true
    · rw [if_pos hsp, if_pos hsp]
      split
      · exact ih []
      · rw [ih []]
    · rw [if_neg hsp, if_neg hsp]
      exact ih (c :: acc)

theorem pyStrip_decomp (cs : List Char) :
    ∃ s, (∀ c ∈ s, isSpace c = true) ∧ cs.dropWhile isSpace = pyStrip cs ++ s := by
  refine ⟨((cs.dropWhile isSpace).reverse.takeWhile isSpace).reverse, ?_, ?_⟩
  · intro c hc
    rw [List.mem_reverse] at hc
    exact List.mem_takeWhile_imp hc
  · show cs.dropWhile isSpace =
      ((cs.dropWhile isSpace).reverse.dropWhile isSpace).reverse ++
        ((cs.dropWhile isSpace).reverse.takeWhile isSpace).reverse
    rw [← List.reverse_append, List.takeWhile_append_dropWhile, List.reverse_reverse]

theorem pyWords_pyStrip (cs : List Char) : pyWords (pyStrip cs) = pyWords cs := by
  obtain ⟨s, hs, hd⟩ := pyStrip_decomp cs
  rw [← pyWords_dropWhile_space cs, hd]
  exact (pyWordsAux_append_all_space s hs (pyStrip cs) []).symm

theorem pyWords_append_space_split (c0 : Char) (hc : isSpace c0 = true)
    (x y : List Char) : pyWords (x ++ c0 :: y) = pyWords x ++ pyWords y :=
  pyWordsAux_append_one_space c0 hc y x []

theorem sentAux_words (cs : List Char) :
    (∀ acc, pyWords (joinSp (sentAux false acc cs)) = pyWords (acc.reverse ++ cs)) ∧
    (∀ acc, pyWords (joinSp (sentAux true acc cs)) = pyWords cs) := by
  induction cs with
  | nil =>
    constructor
    · intro acc
      simp [sentAux, joinSp]
    · intro acc
      simp [sentAux, joinSp, pyWords, pyWordsAux]
  | cons c rest ih =>
    constructor
    · intro acc
      simp only [sentAux]
      split
      · rename_i hcond
        have hcond' := hcond
        simp only [Bool.and_eq_true] at hcond'
        have hsp : isSpace c = true := hcond'.1
        rw [joinSp_cons_ne _ _ (sentAux_ne_nil rest true []),
          pyWords_append_space_split ' ' (by decide) acc.reverse
            (joinSp (sentAux true [] rest)),
          pyWords_append_space_split c hsp acc.reverse rest, ih.2 []]
      · rw [ih.1 (c :: acc)]
        simp
    · intro acc
      simp only [sentAux]
      split
      · rename_i hsp
        rw [ih.2 [], pyWords_cons_space c hsp rest]
      · rw [ih.1 [c]]
        simp

theorem sentSplit_words (cs : List Char) :
    pyWords (joinSp (sentSplit cs)) = pyWords cs := by
  have := (sentAux_words cs).1 []
  simpa [sentSplit] using this

theorem mem_joinSp {c : Char} : ∀ {ws : List (List Char)},
    c ∈ joinSp ws → c = ' ' ∨ ∃ w ∈ ws, c ∈ w := by
  intro ws
  induction ws with
  | nil =>
    intro h
    simp [joinSp] at h
  | cons w ws' ih =>
    intro h
    cases ws' with
    | nil =>
      right
      exact ⟨w, by simp, by simpa [joinSp] using h⟩
    | cons a l =>
      rw [joinSp_cons_ne _ _ (by simp)] at h
      rcases List.mem_append.mp h with h1 | h2
      · right
        exact ⟨w, by simp, h1⟩
      · rcases List.mem_cons.mp h2 with h3 | h4
        · left
          exact h3
        · rcases ih h4 with h5 | ⟨w', hw', hcw⟩
          · left
            exact h5
          · right
            exact ⟨w', List.mem_cons_of_mem _ hw', hcw⟩

theorem sentAux_mem (cs : List Char) : ∀ mode acc s, s ∈ sentAux mode acc cs →
    ∀ c ∈ s, c ∈ acc ∨ c ∈ cs := by
  induction cs with
  | nil =>
    intro mode acc s hs c hc
    cases mode
    · simp only [sentAux, List.mem_singleton] at hs
      subst hs
      left
      exact List.mem_reverse.mp hc
    · simp only [sentAux, List.mem_singleton] at hs
      subst hs
      simp at hc
  | cons c0 rest ih =>
    intro mode acc s hs c hc
    cases mode
    · simp only [sentAux] at hs
      split at hs
      · rcases List.mem_cons.mp hs with h1 | h2
        · subst h1
          left
          exact List.mem_reverse.mp hc
        · rcases ih true [] s h2 c hc with h3 | h4
          · simp at h3
          · right
            exact List.mem_cons_of_mem _ h4
      · rcases ih false (c0 :: acc) s hs c hc with h3 | h4
        · rcases List.mem_cons.mp h3 with h5 | h6
          · right
            simp [h5]
          · left
            exact h6
        · right
          exact List.mem_cons_of_mem _ h4
    · simp only [sentAux] at hs
      split at hs
      · rcases ih true [] s hs c hc with h3 | h4
        · simp at h3
        · right
          exact List.mem_cons_of_mem _ h4
      · rcases ih false [c0] s hs c hc with h3 | h4
        · right
          simp only [List.mem_singleton] at h3
          simp [h3]
        · right
          exact List.mem_cons_of_mem _ h4

theorem pyStrip_mem {c : Char} {cs : List Char} (h : c ∈ pyStrip cs) : c ∈ cs := by
  obtain ⟨s, _, hd⟩ := pyStrip_decomp cs
  have h1 : c ∈ cs.dropWhile isSpace := by
    rw [hd]
    exact List.mem_append_left _ h
  exact (List.dropWhile_sublist _).subset h1

theorem rstripTrail_decomp (cs : List Char) :
    ∃ t, rstripTrail cs ++ t = cs ∧ ∀ c ∈ t, isTrailStripChar c = true := by
  refine ⟨(cs.reverse.takeWhile isTrailStripChar).reverse, ?_, ?_⟩
  · show (cs.reverse.dropWhile isTrailStripChar).reverse ++
      (cs.reverse.takeWhile isTrailStripChar).reverse = cs
    rw [← List.reverse_append, List.takeWhile_append_dropWhile, List.reverse_reverse]
  · intro c hc
    exact List.mem_takeWhile_imp (List.mem_reverse.mp hc)

theorem dropWhile_head_false {p : Char → Bool} : ∀ {l : List Char} {a : Char}
    {t : List Char}, l.dropWhile p = a :: t → p a = false := by
  intro l
  induction l with
  | nil =>
    intro a t h
    simp at h
  | cons c rest ih =>
    intro a t h
    rw [List.dropWhile_cons] at h
    split at h
    · exact ih h
    · rename_i hp
      cases h
      simpa using hp

theorem rstripTrail_last (cs : List Char) (h : rstripTrail cs ≠ []) :
    ∃ c, (rstripTrail cs).getLast? = some c ∧ isTrailStripChar c = false := by
  obtain ⟨a, t, hat⟩ : ∃ a t, cs.reverse.dropWhile isTrailStripChar = a :: t := by
    cases hd : cs.reverse.dropWhile isTrailStripChar with
    | nil =>
      exfalso
      apply h
      show (cs.reverse.dropWhile isTrailStripChar).reverse = []
      rw [hd]
      rfl
    | cons a t => exact ⟨a, t, rfl⟩
  refine ⟨a, ?_, dropWhile_head_false hat⟩
  show (cs.reverse.dropWhile isTrailStripChar).reverse.getLast? = some a
  rw [hat, List.getLast?_reverse]
  rfl

theorem pyWordsAux_cons (acc : List Char) (c : Char) (l : List Char) :
    pyWordsAux acc (c :: l) =
      if isSpace c then
        (if acc.isEmpty then pyWordsAux [] l else acc.reverse :: pyWordsAux [] l)
      else pyWordsAux (c :: acc) l := rfl

theorem pyWordsAux_concat_nonspace (d : Char) (hd : isSpace d = false) :
    ∀ cs acc, (cs = [] → acc ≠ []) →
    (∀ c', cs.getLast? = some c' → isSpace c' = false) →
    (pyWordsAux acc (cs ++ [d])).length = (pyWordsAux acc cs).length := by
  intro cs
  induction cs with
  | nil =>
    intro acc hne _
    have hacc : acc ≠ [] := hne rfl
    show (pyWordsAux acc [d]).length = (pyWordsAux acc []).length
    have h1 : pyWordsAux acc [d] = [(d :: acc).reverse] := by
      simp only [pyWordsAux]
      rw [if_neg (by simp [hd])]
      simp [pyWordsAux]
    have h2 : pyWordsAux acc [] = [acc.reverse] := by
      simp only [pyWordsAux]
      rw [if_neg (by simpa using hacc)]
    rw [h1, h2]
    simp
  | cons c t ih =>
    intro acc _ hlast
    cases t with
    | nil =>
      have hc : isSpace c = false := hlast c rfl
      show (pyWordsAux acc ([c] ++ [d])).length = (pyWordsAux acc [c]).length
      simp [pyWordsAux, hc, hd]
    | cons c2 t2 =>
      have hlast' : ∀ c', (c2 :: t2).getLast? = some c' → isSpace c' = false := by
        intro c' hcl
        apply hlast
        rw [List.getLast?_cons_cons]
        exact hcl
      show (pyWordsAux acc (c :: ((c2 :: t2) ++ [d]))).length =
        (pyWordsAux acc (c :: (c2 :: t2))).length
      rw [pyWordsAux_cons, pyWordsAux_cons]
      by_cases hsp : isSpace c = true
      · rw [if_pos hsp, if_pos hsp]
        split
        · exact ih [] (by simp) hlast'
        · simp only [List.length_cons]
          rw [ih [] (by simp) hlast']
      · rw [if_neg hsp, if_neg hsp]
        exact ih (c :: acc) (by simp) hlast'

/-- The tail of the truncation branch (`rstrip` then ensure terminal
punctuation) keeps the word count bounded and ends with terminal
punctuation. -/
theorem trail_fix_spec (t2 : List Char) (m : Nat) (hm : 0 < m)
    (hcount : (pyWords t2).length ≤ m)
    (honly : ∀ c ∈ t2, isSpace c = true → c = ' ') :
    (pyWords (if endsTerminal (rstripTrail t2) then rstripTrail t2
      else rstripTrail t2 ++ ['.'])).length ≤ m ∧
    endsTerminal (if endsTerminal (rstripTrail t2) then rstripTrail t2
      else rstripTrail t2 ++ ['.']) = true := by
  obtain ⟨t, hsplit, _⟩ := rstripTrail_decomp t2
  have h3count : (pyWords (rstripTrail t2)).length ≤ m := by
    calc (pyWords (rstripTrail t2)).length
        ≤ (pyWords (rstripTrail t2 ++ t)).length := pyWords_length_of_front _ _
      _ = (pyWords t2).length := by rw [hsplit]
      _ ≤ m := hcount
  by_cases hterm : endsTerminal (rstripTrail t2) = true
  · rw [if_pos hterm]
    exact ⟨h3count, hterm⟩
  · rw [if_neg (by simpa using hterm)]
    constructor
    · by_cases h0 : rstripTrail t2 = []
      · rw [h0]
        show (pyWords ['.']).length ≤ m
        have : (pyWords ['.']).length = 1 := by decide
        omega
      · obtain ⟨cl, hcl, hclns⟩ := rstripTrail_last t2 h0
        have hmem : cl ∈ rstripTrail t2 := by
          obtain ⟨hne, heq⟩ := List.mem_getLast?_eq_getLast
            (show cl ∈ (rstripTrail t2).getLast? from hcl)
          rw [heq]
          exact List.getLast_mem hne
        have hcl_in_t2 : cl ∈ t2 := by
          rw [← hsplit]
          exact List.mem_append_left _ hmem
        have hclsp : isSpace cl = false := by
          by_contra hc
          have hsp : isSpace cl = true := by
            cases hx : isSpace cl
            · exact absurd hx hc
            · rfl
          have := honly cl hcl_in_t2 hsp
          rw [this] at hclns
          simp [isTrailStripChar] at hclns
        have hlen := pyWordsAux_concat_nonspace '.' (by decide) (rstripTrail t2) []
          (fun he => absurd he h0)
          (fun c' hc' => by
            rw [hcl] at hc'
            cases hc'
            exact hclsp)
        show (pyWordsAux [] (rstripTrail t2 ++ ['.'])).length ≤ m
        rw [hlen]
        exact h3count
    · show endsTerminal (rstripTrail t2 ++ ['.']) = true
      simp [endsTerminal, List.getLast?_concat, isTerminal]

/-- C3 (counterexample): the claim that `truncate_to_word_limit` always
returns text ending in terminal punctuation, including when the input is
already within the word limit, is false: a one-word input within the
limit is returned as-is without punctuation. -/
theorem C3_truncate_counterexample :
    truncate_to_word_limit "hello".toList 1 = "hello".toList ∧
    endsTerminal (truncate_to_word_limit "hello".toList 1) = false ∧ 0 < 1 := by
  refine ⟨?_, ?_, ?_⟩ <;> decide

/-- C3 (amended): for every text and positive `max_words`, the result of
`truncate_to_word_limit` has at most `max_words` words; when the input
exceeds the word limit the result ends with terminal punctuation; when
the input is within the limit it is returned as-is (stripped), which
need not end in terminal punctuation. -/
theorem C3_truncate_word_limit_amended (text : List Char) (max_words : Nat)
    (h : 0 < max_words) :
    (pyWords (truncate_to_word_limit text max_words)).length ≤ max_words ∧
    (max_words < (pyWords text).length →
      endsTerminal (truncate_to_word_limit text max_words) = true) ∧
    ((pyWords text).length ≤ max_words →
      truncate_to_word_limit text max_words = pyStrip text) := by
  by_cases hlen : (pyWords text).length ≤ max_words
  · have heq : truncate_to_word_limit text max_words = pyStrip text := by
      simp only [truncate_to_word_limit]
      rw [if_pos hlen]
    refine ⟨?_, ?_, fun _ => heq⟩
    · rw [heq, pyWords_pyStrip]
      exact hlen
    · intro hcon
      omega
  · simp only [truncate_to_word_limit]
    rw [if_neg hlen]
    set tt := pyStrip (joinSp (List.take max_words (pyWords text))) with htt_def
    set sentences := sentSplit tt with hsent_def
    set cand := pyStrip (joinSp sentences.dropLast) with hcand_def
    have hwf := pyWords_wf text
    have htw_wf : ∀ w ∈ List.take max_words (pyWords text),
        w ≠ [] ∧ ∀ c ∈ w, isSpace c = false :=
      fun w hw => hwf w (List.take_subset _ _ hw)
    have htt_words : pyWords tt = List.take max_words (pyWords text) := by
      rw [htt_def, pyWords_pyStrip]
      exact pyWords_joinSp _ htw_wf
    have htt_len : (pyWords tt).length = max_words := by
      rw [htt_words, List.length_take]
      omega
    have htt_only : ∀ c ∈ tt, isSpace c = true → c = ' ' := by
      intro c hc hsp
      have hc2 : c ∈ joinSp (List.take max_words (pyWords text)) := by
        rw [htt_def] at hc
        exact pyStrip_mem hc
      rcases mem_joinSp hc2 with h1 | ⟨w, hw, hcw⟩
      · exact h1
      · have := (htw_wf w hw).2 c hcw
        rw [this] at hsp
        cases hsp
    have hcand_count : (pyWords cand).length ≤ max_words := by
      rw [hcand_def, pyWords_pyStrip]
      obtain ⟨t, hpre⟩ := joinSp_dropLast_front sentences
      calc (pyWords (joinSp sentences.dropLast)).length
          ≤ (pyWords (joinSp sentences.dropLast ++ t)).length :=
            pyWords_length_of_front _ _
        _ = (pyWords (joinSp sentences)).length := by rw [hpre]
        _ = (pyWords tt).length := by rw [hsent_def, sentSplit_words]
        _ = max_words := htt_len
    have hcand_only : ∀ c ∈ cand, isSpace c = true → c = ' ' := by
      intro c hc hsp
      have hc2 : c ∈ joinSp sentences.dropLast := by
        rw [hcand_def] at hc
        exact pyStrip_mem hc
      rcases mem_joinSp hc2 with h1 | ⟨s, hs, hcs⟩
      · exact h1
      · have hs2 : s ∈ sentences := (List.dropLast_sublist _).subset hs
        have hctt : c ∈ tt := by
          rcases sentAux_mem tt false [] s hs2 c hcs with hx | hx
          · simp at hx
          · exact hx
        exact htt_only c hctt hsp
    have hchoice : (if 1 < sentences.length then
          (if ¬cand.isEmpty ∧ max 1 (3 * max_words / 5) ≤ (pyWords cand).length
            then cand else tt)
        else tt) = cand ∨
        (if 1 < sentences.length then
          (if ¬cand.isEmpty ∧ max 1 (3 * max_words / 5) ≤ (pyWords cand).length
            then cand else tt)
        else tt) = tt := by
      split
      · split
        · exact Or.inl rfl
        · exact Or.inr rfl
      · exact Or.inr rfl
    rcases hchoice with heq | heq
    · rw [heq]
      have hfix := trail_fix_spec cand max_words h hcand_count hcand_only
      exact ⟨hfix.1, fun _ => hfix.2, fun hcon => absurd hcon hlen⟩
    · rw [heq]
      have hfix := trail_fix_spec tt max_words h (le_of_eq htt_len) htt_only
      exact ⟨hfix.1, fun _ => hfix.2, fun hcon => absurd hcon hlen⟩

/-- Witness for the amended C3 at a concrete input. -/
theorem C3_truncate_word_limit_amended_witness :
    0 < 3 ∧
    ((pyWords (truncate_to_word_limit "One two. Three four five six seven".toList 3)).length ≤ 3 ∧
      (3 < (pyWords "One two. Three four five six seven".toList).length →
        endsTerminal (truncate_to_word_limit "One two. Three four five six seven".toList 3) = true) ∧
      ((pyWords "One two. Three four five six seven".toList).length ≤ 3 →
        truncate_to_word_limit "One two. Three four five six seven".toList 3 =
          pyStrip "One two. Three four five six seven".toList)) :=
  ⟨by decide,
    C3_truncate_word_limit_amended "One two. Three four five six seven".toList 3 (by decide)⟩

/-! ## Lemmas for the store and the orchestrator -/

theorem find?_append_none {α : Type} (p : α → Bool) :
    ∀ l1 l2 : List α, l1.find? p = none → (l1 ++ l2).find? p = l2.find? p := by
  intro l1
  induction l1 with
  | nil =>
    intro l2 _
    rfl
  | cons a l ih =>
    intro l2 h
    have hpa : p a = false := by
      cases hx : p a
      · rfl
      · rw [List.find?_cons_of_pos _ hx] at h
        cases h
    rw [List.find?_cons_of_neg _ (by simp [hpa])] at h
    rw [List.cons_append, List.find?_cons_of_neg _ (by simp [hpa])]
    exact ih l2 h

/-- A fresh key inserts a new record at the next surrogate id. -/
theorem create_summary_fresh (st : Store) (url stext : List Char)
    (spt : Option (List Char)) (wc : Nat) (so spo : String)
    (h : get_by_url_and_word_count st url wc = none) :
    create_summary st url stext spt wc so spo =
      .ok ((⟨st.nextId, url, wc, stext, so, spt, spo⟩, true),
        ⟨st.recs ++ [⟨st.nextId, url, wc, stext, so, spt, spo⟩], st.nextId + 1⟩) := by
  simp only [create_summary, h]

/-- C2: when a record with the same `(url, word_count)` key already exists
in the store, `create_summary` does not raise: it returns the existing
record with `created_new = false` and the store (hence the pre-existing
record) unchanged. -/
theorem C2_insert_conflict_returns_existing (st : Store) (url stext : List Char)
    (spt : Option (List Char)) (wc : Nat) (so spo : String) (r : SummaryRec)
    (h : get_by_url_and_word_count st url wc = some r) :
    create_summary st url stext spt wc so spo = .ok ((r, false), st) := by
  simp only [create_summary, h]

/-- Witness for C2 at a concrete store. -/
theorem C2_insert_conflict_returns_existing_witness :
    get_by_url_and_word_count
        ⟨[⟨0, "https://en.wikipedia.org/wiki/AI".toList, 5, "Old.".toList,
          "llm", none, "skipped"⟩], 1⟩
        "https://en.wikipedia.org/wiki/AI".toList 5 =
      some ⟨0, "https://en.wikipedia.org/wiki/AI".toList, 5, "Old.".toList,
        "llm", none, "skipped"⟩ ∧
    create_summary
        ⟨[⟨0, "https://en.wikipedia.org/wiki/AI".toList, 5, "Old.".toList,
          "llm", none, "skipped"⟩], 1⟩
        "https://en.wikipedia.org/wiki/AI".toList "New.".toList none 5 "llm" "llm" =
      .ok ((⟨0, "https://en.wikipedia.org/wiki/AI".toList, 5, "Old.".toList,
          "llm", none, "skipped"⟩, false),
        ⟨[⟨0, "https://en.wikipedia.org/wiki/AI".toList, 5, "Old.".toList,
          "llm", none, "skipped"⟩], 1⟩) :=
  ⟨by decide,
    C2_insert_conflict_returns_existing _ _ _ _ _ _ _ _ (by decide)⟩

/-- C7: when translation raises, `get_or_create_summary` still returns
the base summary successfully: the stored record keeps the summarization
step's text and origin unchanged, with `summary_pt = none` and
`summary_pt_origin = "error"`. -/
theorem C7_translation_failure_keeps_summary
    (fetchArticle : List Char → Except FetchFail (List Char))
    (summarizeF : List Char → Nat → Except Unit (List Char × String))
    (translateF : List Char → Nat → Except Unit (Option (List Char) × String))
    (st : Store) (url nurl article stext : List Char) (wc : Nat) (so : String)
    (e : Unit)
    (hn : normalize_wikipedia_url url = .ok nurl)
    (hl : get_by_url_and_word_count st nurl wc = none)
    (hf : fetchArticle nurl = .ok article)
    (hs : summarizeF article wc = .ok (stext, so))
    (ht : translateF stext wc = .error e) :
    get_or_create_summary fetchArticle summarizeF translateF st url wc =
      .ok ((⟨st.nextId, nurl, wc, stext, so, none, TRANSLATION_ORIGIN_ERROR⟩,
        .generated,
        ⟨st.recs ++ [⟨st.nextId, nurl, wc, stext, so, none,
          TRANSLATION_ORIGIN_ERROR⟩], st.nextId + 1⟩), (1, 1)) := by
  simp only [get_or_create_summary, hn, hl, hf, hs, ht,
    create_summary_fresh st nurl stext none wc so TRANSLATION_ORIGIN_ERROR hl]
  simp

/-- Witness for C7 at concrete mocks. -/
theorem C7_translation_failure_keeps_summary_witness :
    normalize_wikipedia_url "https://en.wikipedia.org/wiki/AI".toList =
      .ok "https://en.wikipedia.org/wiki/AI".toList ∧
    get_or_create_summary (fun _ => .ok "w1 w2 w3.".toList)
        (fun _ _ => .ok ("Sum.".toList, "llm"))
        (fun _ _ => .error ())
        ⟨[], 0⟩ "https://en.wikipedia.org/wiki/AI".toList 5 =
      .ok ((⟨0, "https://en.wikipedia.org/wiki/AI".toList, 5, "Sum.".toList,
        "llm", none, TRANSLATION_ORIGIN_ERROR⟩, .generated,
        ⟨[⟨0, "https://en.wikipedia.org/wiki/AI".toList, 5, "Sum.".toList,
          "llm", none, TRANSLATION_ORIGIN_ERROR⟩], 1⟩), (1, 1)) :=
  ⟨by decide,
    C7_translation_failure_keeps_summary
      (fun _ => .ok "w1 w2 w3.".toList) (fun _ _ => .ok ("Sum.".toList, "llm"))
      (fun _ _ => .error ()) ⟨[], 0⟩
      "https://en.wikipedia.org/wiki/AI".toList
      "https://en.wikipedia.org/wiki/AI".toList
      "w1 w2 w3.".toList "Sum.".toList 5 "llm" ()
      (by decide) (by decide) (by decide) (by decide) (by decide)⟩

/-- C1: when a first `get_or_create_summary` call generates and stores a
record, the summarization and translation steps each ran exactly once in
it, and a second call with the identical `(url, word_count)` pair
returns that same record from the cache, with the generation and
translation steps not running at all. -/
theorem C1_get_or_create_twice
    (fetchArticle : List Char → Except FetchFail (List Char))
    (summarizeF : List Char → Nat → Except Unit (List Char × String))
    (translateF : List Char → Nat → Except Unit (Option (List Char) × String))
    (st st' : Store) (url : List Char) (word_count : Nat) (rec : SummaryRec)
    (g t : Nat)
    (h : get_or_create_summary fetchArticle summarizeF translateF st url word_count =
      .ok ((rec, .generated, st'), (g, t))) :
    g = 1 ∧ t = 1 ∧
    get_or_create_summary fetchArticle summarizeF translateF st' url word_count =
      .ok ((rec, .cache, st'), (0, 0)) := by
  cases hn : normalize_wikipedia_url url with
  | error e =>
    cases e <;> simp [get_or_create_summary, hn] at h
  | ok nurl =>
    cases hl : get_by_url_and_word_count st nurl word_count with
    | some existing =>
      simp [get_or_create_summary, hn, hl] at h
    | none =>
      cases hf : fetchArticle nurl with
      | error e =>
        cases e <;> simp [get_or_create_summary, hn, hl, hf] at h
      | ok article =>
        cases hs : summarizeF article word_count with
        | error e =>
          simp [get_or_create_summary, hn, hl, hf, hs] at h
        | ok p =>
          obtain ⟨stext, so⟩ := p
          cases ht : translateF stext word_count with
          | ok q =>
            obtain ⟨pt, po⟩ := q
            have heq : get_or_create_summary fetchArticle summarizeF translateF
                st url word_count =
                .ok ((⟨st.nextId, nurl, word_count, stext, so, pt, po⟩, .generated,
                  ⟨st.recs ++ [⟨st.nextId, nurl, word_count, stext, so, pt, po⟩],
                    st.nextId + 1⟩), (1, 1)) := by
              simp only [get_or_create_summary, hn, hl, hf, hs, ht,
                create_summary_fresh st nurl stext pt word_count so po hl]
              simp
            have h2 := heq.symm.trans h
            injection h2 with hpair
            injection hpair with hmain hcounts
            injection hmain with hrec hrest
            injection hrest with _ hst
            injection hcounts with hg ht2
            subst hrec
            subst hst
            subst hg
            subst ht2
            refine ⟨rfl, rfl, ?_⟩
            simp only [get_or_create_summary, hn]
            have hl2 : get_by_url_and_word_count
                ⟨st.recs ++ [⟨st.nextId, nurl, word_count, stext, so, pt, po⟩],
                  st.nextId + 1⟩ nurl word_count =
                some ⟨st.nextId, nurl, word_count, stext, so, pt, po⟩ := by
              show (st.recs ++ [(⟨st.nextId, nurl, word_count, stext, so, pt, po⟩ :
                  SummaryRec)]).find?
                  (fun r => r.url == nurl && r.word_count == word_count) = _
              rw [find?_append_none _ _ _ hl]
              rw [List.find?_cons_of_pos _ (by simp)]
            rw [hl2]
          | error e =>
            have heq : get_or_create_summary fetchArticle summarizeF translateF
                st url word_count =
                .ok ((⟨st.nextId, nurl, word_count, stext, so, none,
                  TRANSLATION_ORIGIN_ERROR⟩, .generated,
                  ⟨st.recs ++ [⟨st.nextId, nurl, word_count, stext, so, none,
                    TRANSLATION_ORIGIN_ERROR⟩], st.nextId + 1⟩), (1, 1)) := by
              simp only [get_or_create_summary, hn, hl, hf, hs, ht,
                create_summary_fresh st nurl stext none word_count so
                  TRANSLATION_ORIGIN_ERROR hl]
              simp
            have h2 := heq.symm.trans h
            injection h2 with hpair
            injection hpair with hmain hcounts
            injection hmain with hrec hrest
            injection hrest with _ hst
            injection hcounts with hg ht2
            subst hrec
            subst hst
            subst hg
            subst ht2
            refine ⟨rfl, rfl, ?_⟩
            simp only [get_or_create_summary, hn]
            have hl2 : get_by_url_and_word_count
                ⟨st.recs ++ [⟨st.nextId, nurl, word_count, stext, so, none,
                  TRANSLATION_ORIGIN_ERROR⟩], st.nextId + 1⟩ nurl word_count =
                some ⟨st.nextId, nurl, word_count, stext, so, none,
                  TRANSLATION_ORIGIN_ERROR⟩ := by
              show (st.recs ++ [(⟨st.nextId, nurl, word_count, stext, so, none,
                  TRANSLATION_ORIGIN_ERROR⟩ : SummaryRec)]).find?
                  (fun r => r.url == nurl && r.word_count == word_count) = _
              rw [find?_append_none _ _ _ hl]
              rw [List.find?_cons_of_pos _ (by simp)]
            rw [hl2]

/-- Witness for C1 at concrete mocks. -/
theorem C1_get_or_create_twice_witness :
    get_or_create_summary (fun _ => .ok "w1 w2 w3.".toList)
        (fun _ _ => .ok ("Sum.".toList, "llm"))
        (fun _ _ => .ok (some "Pt.".toList, "llm"))
        ⟨[], 0⟩ "https://en.wikipedia.org/wiki/AI".toList 5 =
      .ok ((⟨0, "https://en.wikipedia.org/wiki/AI".toList, 5, "Sum.".toList,
        "llm", some "Pt.".toList, "llm"⟩, .generated,
        ⟨[⟨0, "https://en.wikipedia.org/wiki/AI".toList, 5, "Sum.".toList,
          "llm", some "Pt.".toList, "llm"⟩], 1⟩), (1, 1)) ∧
    (1 = 1 ∧ 1 = 1 ∧
      get_or_create_summary (fun _ => .ok "w1 w2 w3.".toList)
          (fun _ _ => .ok ("Sum.".toList, "llm"))
          (fun _ _ => .ok (some "Pt.".toList, "llm"))
          ⟨[⟨0, "https://en.wikipedia.org/wiki/AI".toList, 5, "Sum.".toList,
            "llm", some "Pt.".toList, "llm"⟩], 1⟩
          "https://en.wikipedia.org/wiki/AI".toList 5 =
        .ok ((⟨0, "https://en.wikipedia.org/wiki/AI".toList, 5, "Sum.".toList,
          "llm", some "Pt.".toList, "llm"⟩, .cache,
          ⟨[⟨0, "https://en.wikipedia.org/wiki/AI".toList, 5, "Sum.".toList,
            "llm", some "Pt.".toList, "llm"⟩], 1⟩), (0, 0))) :=
  ⟨by decide,
    C1_get_or_create_twice (fun _ => .ok "w1 w2 w3.".toList)
      (fun _ _ => .ok ("Sum.".toList, "llm"))
      (fun _ _ => .ok (some "Pt.".toList, "llm"))
      ⟨[], 0⟩
      ⟨[⟨0, "https://en.wikipedia.org/wiki/AI".toList, 5, "Sum.".toList,
        "llm", some "Pt.".toList, "llm"⟩], 1⟩
      "https://en.wikipedia.org/wiki/AI".toList 5
      ⟨0, "https://en.wikipedia.org/wiki/AI".toList, 5, "Sum.".toList,
        "llm", some "Pt.".toList, "llm"⟩ 1 1 (by decide)⟩

/-! ## Lemmas for the generation engine -/

theorem invoke_with_fallback_cases (o : LLMOracle) (cfg : LLMCfg) (p f : String)
    (n : Nat) (txt : List Char) (org : String) (n' : Nat)
    (h : invoke_with_fallback o cfg p f n = .ok ((txt, org), n')) :
    n' = n + 1 ∧ ((org = p ∧ (o n).primaryResult = some txt) ∨
      (org = f ∧ (o n).primaryResult = none)) := by
  cases hp : (o n).primaryResult with
  | some t0 =>
    have heq : invoke_with_fallback o cfg p f n = .ok ((t0, p), n + 1) := by
      simp [invoke_with_fallback, hp]
    have h2 := heq.symm.trans h
    injection h2 with h1
    injection h1 with h2 h3
    injection h2 with h4 h5
    refine ⟨h3.symm, Or.inl ⟨h5.symm, ?_⟩⟩
    rw [h4]
  | none =>
    cases hcfg : cfg.fallbackConfigured with
    | false =>
      have heq : invoke_with_fallback o cfg p f n = .error () := by
        simp [invoke_with_fallback, hp, hcfg]
      rw [heq] at h
      cases h
    | true =>
      cases hf : (o n).fallbackResult with
      | none =>
        have heq : invoke_with_fallback o cfg p f n = .error () := by
          simp [invoke_with_fallback, hp, hcfg, hf]
        rw [heq] at h
        cases h
      | some t0 =>
        have heq : invoke_with_fallback o cfg p f n = .ok ((t0, f), n + 1) := by
          simp [invoke_with_fallback, hp, hcfg, hf]
        have h2 := heq.symm.trans h
        injection h2 with h1
        injection h1 with h2 h3
        injection h2 with h4 h5
        exact ⟨h3.symm, Or.inr ⟨h5.symm, rfl⟩⟩

/-- C10: the Portuguese-language gate additionally requires the
whitespace-normalized text to be at least 40 characters long, so for
every summary whose normalized form is shorter than 40 characters,
`translate_summary_to_portuguese` never returns origin `"skipped"`,
whatever the stopword statistics of the text are. -/
theorem C10_short_summary_never_skipped (extract : List Char → List Char)
    (o : LLMOracle) (cfg : LLMCfg) (enabled available : Bool)
    (summary_en : List Char) (word_count n : Nat) (tr : Option (List Char))
    (org : String) (n' : Nat)
    (hshort : (normWs summary_en).length < 40)
    (h : translate_summary_to_portuguese extract o cfg enabled available
      summary_en word_count n = .ok ((tr, org), n')) :
    org ≠ TRANSLATION_ORIGIN_SKIPPED := by
  have hlp : looks_like_portuguese summary_en = false := by
    simp only [looks_like_portuguese, List.length_map]
    rw [if_pos hshort]
  cases enabled with
  | false =>
    have heq : translate_summary_to_portuguese extract o cfg false available
        summary_en word_count n = .ok ((none, TRANSLATION_ORIGIN_DISABLED), n) := by
      simp [translate_summary_to_portuguese]
    have h2 := heq.symm.trans h
    injection h2 with h1
    injection h1 with h2 h3
    injection h2 with h4 h5
    subst h5
    decide
  | true =>
    cases available with
    | false =>
      have heq : translate_summary_to_portuguese extract o cfg true false
          summary_en word_count n =
          .ok ((none, TRANSLATION_ORIGIN_UNAVAILABLE), n) := by
        simp [translate_summary_to_portuguese, hlp]
      have h2 := heq.symm.trans h
      injection h2 with h1
      injection h1 with h2 h3
      injection h2 with h4 h5
      subst h5
      decide
    | true =>
      cases hi : invoke_with_fallback o cfg SUMMARY_ORIGIN_LLM
          SUMMARY_ORIGIN_LLM_FALLBACK n with
      | error e =>
        have heq : translate_summary_to_portuguese extract o cfg true true
            summary_en word_count n = .error e := by
          simp [translate_summary_to_portuguese, hlp, hi]
        rw [heq] at h
        cases h
      | ok r =>
        obtain ⟨⟨raw, org0⟩, n0⟩ := r
        have heq : translate_summary_to_portuguese extract o cfg true true
            summary_en word_count n =
            .ok ((some (truncate_to_word_limit (extract raw) word_count), org0), n0) := by
          simp [translate_summary_to_portuguese, hlp, hi]
        have h2 := heq.symm.trans h
        injection h2 with h1
        injection h1 with h2 h3
        injection h2 with h4 h5
        subst h5
        rcases (invoke_with_fallback_cases o cfg _ _ n raw org0 n0 hi).2 with
          ⟨ho, _⟩ | ⟨ho, _⟩ <;> subst ho <;> decide

/-- Witness for C10 at a concrete short Portuguese-looking input. -/
theorem C10_short_summary_never_skipped_witness :
    (normWs "a a a a a".toList).length < 40 ∧
    translate_summary_to_portuguese (fun l => l) (fun _ => ⟨none, none⟩) ⟨false⟩
        true false "a a a a a".toList 80 0 =
      .ok ((none, TRANSLATION_ORIGIN_UNAVAILABLE), 0) ∧
    TRANSLATION_ORIGIN_UNAVAILABLE ≠ TRANSLATION_ORIGIN_SKIPPED :=
  ⟨by decide, by decide,
    C10_short_summary_never_skipped (fun l => l) (fun _ => ⟨none, none⟩) ⟨false⟩
      true false "a a a a a".toList 80 0 none TRANSLATION_ORIGIN_UNAVAILABLE 0
      (by decide) (by decide)⟩

/-- C6 (counterexample): the claim that `summarize_text` never
propagates a generation failure for every source text is false: with an
empty source text and no usable credential, `_fallback_summary` itself
raises (the model returns `.error`), so nothing with origin `fallback`
is returned. -/
theorem C6_summarize_counterexample :
    summarize_text (fun l => l) (fun _ => ⟨none, none⟩) ⟨false⟩ false [] 5 0 =
      .error () := by decide

/-- C6 (amended): for every source text that is nonempty after
whitespace normalization, `summarize_text` never propagates a generation
failure: with no usable credential, or when the LLM path fails, it
returns the extractive fallback `_fallback_summary(text, word_count)`
(the first five sentences truncated to the word budget) with origin
`"fallback"`. -/
theorem C6_summarize_degrades_to_fallback (extract : List Char → List Char)
    (o : LLMOracle) (cfg : LLMCfg) (text : List Char) (word_count n : Nat)
    (hne : normWs text ≠ []) :
    (∀ available : Bool, available = false →
      ∃ fb, fallback_summary text word_count = .ok fb ∧
        summarize_text extract o cfg available text word_count n =
          .ok ((fb, SUMMARY_ORIGIN_FALLBACK), n)) ∧
    (∀ e : Unit,
      (if 1200 ≤ (pyWords (normWs text)).length
        then summarize_map_reduce extract o cfg (normWs text) word_count n
        else summarize_single_pass extract o cfg (normWs text) word_count n) =
          .error e →
      ∃ fb, fallback_summary text word_count = .ok fb ∧
        summarize_text extract o cfg true text word_count n =
          .ok ((fb, SUMMARY_ORIGIN_FALLBACK), n)) := by
  have hfb : ∃ fb, fallback_summary text word_count = .ok fb := by
    simp only [fallback_summary]
    rw [if_neg (by simpa using hne)]
    exact ⟨_, rfl⟩
  obtain ⟨fb, hfb⟩ := hfb
  constructor
  · intro available ha
    subst ha
    exact ⟨fb, hfb, by simp [summarize_text, hfb]⟩
  · intro e herr
    refine ⟨fb, hfb, ?_⟩
    simp only [summarize_text]
    rw [if_neg (by simp)]
    rw [herr, hfb]

/-- Witness for the amended C6 at a concrete input. -/
theorem C6_summarize_degrades_to_fallback_witness :
    normWs "First point. Second point. Third.".toList ≠ [] ∧
    ((∀ available : Bool, available = false →
      ∃ fb, fallback_summary "First point. Second point. Third.".toList 4 = .ok fb ∧
        summarize_text (fun l => l) (fun _ => ⟨none, none⟩) ⟨false⟩ available
          "First point. Second point. Third.".toList 4 0 =
          .ok ((fb, SUMMARY_ORIGIN_FALLBACK), 0)) ∧
    (∀ e : Unit,
      (if 1200 ≤ (pyWords (normWs "First point. Second point. Third.".toList)).length
        then summarize_map_reduce (fun l => l) (fun _ => ⟨none, none⟩) ⟨false⟩
          (normWs "First point. Second point. Third.".toList) 4 0
        else summarize_single_pass (fun l => l) (fun _ => ⟨none, none⟩) ⟨false⟩
          (normWs "First point. Second point. Third.".toList) 4 0) = .error e →
      ∃ fb, fallback_summary "First point. Second point. Third.".toList 4 = .ok fb ∧
        summarize_text (fun l => l) (fun _ => ⟨none, none⟩) ⟨false⟩ true
          "First point. Second point. Third.".toList 4 0 =
          .ok ((fb, SUMMARY_ORIGIN_FALLBACK), 0))) :=
  ⟨by decide,
    C6_summarize_degrades_to_fallback (fun l => l) (fun _ => ⟨none, none⟩) ⟨false⟩
      "First point. Second point. Third.".toList 4 0 (by decide)⟩

theorem string_contains_iff (l : List String) (a : String) :
    l.contains a = true ↔ a ∈ l := by
  induction l with
  | nil => simp
  | cons b m ih => simp

/-- What the per-chunk loop of `_summarize_map_reduce` guarantees: it
consumes one invocation occasion per chunk, every per-chunk origin is
`llm` or `llm_fallback`, and `llm_fallback` occurs among the origins
exactly when some consumed occasion had its primary call fail. -/
theorem map_chunks_spec (extract : List Char → List Char) (o : LLMOracle)
    (cfg : LLMCfg) (tgt : Nat) :
    ∀ (chunks : List (List Char)) (n : Nat) (ps : List (List Char))
      (os : List String) (n' : Nat),
    map_chunks extract o cfg tgt chunks n = .ok ((ps, os), n') →
    n' = n + chunks.length ∧
    (∀ s ∈ os, s = SUMMARY_ORIGIN_LLM ∨ s = SUMMARY_ORIGIN_LLM_FALLBACK) ∧
    (SUMMARY_ORIGIN_LLM_FALLBACK ∈ os ↔
      ∃ i, n ≤ i ∧ i < n' ∧ (o i).primaryResult = none) := by
  intro chunks
  induction chunks with
  | nil =>
    intro n ps os n' h
    injection h with h1
    injection h1 with h2 h3
    injection h2 with h4 h5
    subst h3
    subst h4
    subst h5
    refine ⟨by simp, by simp, ?_⟩
    simp only [List.not_mem_nil, false_iff]
    rintro ⟨i, h1, h2, _⟩
    omega
  | cons c rest ih =>
    intro n ps os n' h
    cases hi : invoke_with_fallback o cfg SUMMARY_ORIGIN_LLM
        SUMMARY_ORIGIN_LLM_FALLBACK n with
    | error e =>
      have heq : map_chunks extract o cfg tgt (c :: rest) n = .error e := by
        simp [map_chunks, hi]
      rw [heq] at h
      cases h
    | ok r =>
      obtain ⟨⟨raw, org0⟩, m⟩ := r
      obtain ⟨hm, hcase⟩ := invoke_with_fallback_cases o cfg _ _ n raw org0 m hi
      cases hrest : map_chunks extract o cfg tgt rest m with
      | error e =>
        have heq : map_chunks extract o cfg tgt (c :: rest) n = .error e := by
          simp [map_chunks, hi, hrest]
        rw [heq] at h
        cases h
      | ok r2 =>
        obtain ⟨⟨ps0, os0⟩, n'0⟩ := r2
        have heq : map_chunks extract o cfg tgt (c :: rest) n =
            .ok ((truncate_to_word_limit (extract raw) tgt :: ps0, org0 :: os0), n'0) := by
          simp [map_chunks, hi, hrest]
        have h2 := heq.symm.trans h
        injection h2 with h1
        injection h1 with h2 h3
        injection h2 with h4 h5
        subst h3
        subst h5
        obtain ⟨ih1, ih2, ih3⟩ := ih m ps0 os0 n'0 hrest
        subst hm
        subst ih1
        refine ⟨by simp; omega, ?_, ?_⟩
        · intro s hs
          rcases List.mem_cons.mp hs with hh | ht
          · subst hh
            rcases hcase with ⟨ho, _⟩ | ⟨ho, _⟩
            · exact Or.inl ho
            · exact Or.inr ho
          · exact ih2 s ht
        · constructor
          · intro hmem
            rcases List.mem_cons.mp hmem with hh | ht
            · rcases hcase with ⟨ho, _⟩ | ⟨ho, hpn⟩
              · rw [ho] at hh
                exact absurd hh.symm (by decide)
              · exact ⟨n, le_refl n, by omega, hpn⟩
            · obtain ⟨i, hge, hlt, hpn⟩ := ih3.mp ht
              exact ⟨i, by omega, hlt, hpn⟩
          · rintro ⟨i, hge, hlt, hpn⟩
            by_cases hin : i < n + 1
            · have hieq : i = n := by omega
              subst hieq
              rcases hcase with ⟨_, hps⟩ | ⟨ho, _⟩
              · rw [hps] at hpn
                cases hpn
              · rw [← ho]
                exact List.mem_cons_self _ _
            · exact List.mem_cons_of_mem _ (ih3.mpr ⟨i, by omega, hlt, hpn⟩)

/-- C8: for every map-reduce summarization run, the final summary's
origin is `llm_fallback` exactly when at least one per-chunk invocation
or the reduction invocation used the fallback model (i.e. some consumed
invocation occasion in `[n, n')` had its primary-model call fail), and
`llm` otherwise. -/
theorem C8_map_reduce_origin (extract : List Char → List Char) (o : LLMOracle)
    (cfg : LLMCfg) (text : List Char) (word_count n : Nat) (s : List Char)
    (org : String) (n' : Nat)
    (h : summarize_map_reduce extract o cfg text word_count n = .ok ((s, org), n')) :
    (org = SUMMARY_ORIGIN_LLM ∨ org = SUMMARY_ORIGIN_LLM_FALLBACK) ∧
    (org = SUMMARY_ORIGIN_LLM_FALLBACK ↔
      ∃ i, n ≤ i ∧ i < n' ∧ (o i).primaryResult = none) := by
  by_cases hone : (split_text_into_chunks (normWs text) 800).length ≤ 1
  · -- single-pass delegation
    have hsp : summarize_single_pass extract o cfg (normWs text) word_count n =
        .ok ((s, org), n') := by
      rw [← h]
      simp [summarize_map_reduce, hone]
    cases hi : invoke_with_fallback o cfg SUMMARY_ORIGIN_LLM
        SUMMARY_ORIGIN_LLM_FALLBACK n with
    | error e =>
      have heq : summarize_single_pass extract o cfg (normWs text) word_count n =
          .error e := by
        simp [summarize_single_pass, hi]
      rw [heq] at hsp
      cases hsp
    | ok r =>
      obtain ⟨⟨raw, org0⟩, n0⟩ := r
      obtain ⟨hn0, hcase⟩ := invoke_with_fallback_cases o cfg _ _ n raw org0 n0 hi
      have heq : summarize_single_pass extract o cfg (normWs text) word_count n =
          .ok ((truncate_to_word_limit (extract raw) word_count, org0), n0) := by
        simp [summarize_single_pass, hi]
      have h2 := heq.symm.trans hsp
      injection h2 with h1
      injection h1 with h2 h3
      injection h2 with h4 h5
      subst h5
      subst h3
      subst hn0
      rcases hcase with ⟨ho, hps⟩ | ⟨ho, hpn⟩
      · refine ⟨Or.inl ho, ?_, ?_⟩
        · intro hc
          rw [ho] at hc
          exact absurd hc (by decide)
        · rintro ⟨i, hge, hlt, hpn⟩
          have hieq : i = n := by omega
          subst hieq
          rw [hps] at hpn
          cases hpn
      · exact ⟨Or.inr ho, fun _ => ⟨n, le_refl n, by omega, hpn⟩, fun _ => ho⟩
  · -- genuine map-reduce
    cases hmc : map_chunks extract o cfg
        (map_chunk_word_target word_count
          (split_text_into_chunks (normWs text) 800).length)
        (split_text_into_chunks (normWs text) 800) n with
    | error e =>
      have heq : summarize_map_reduce extract o cfg text word_count n = .error e := by
        simp [summarize_map_reduce, hone, hmc]
      rw [heq] at h
      cases h
    | ok r =>
      obtain ⟨⟨ps0, os0⟩, nmid⟩ := r
      cases hred : invoke_with_fallback o cfg SUMMARY_ORIGIN_LLM
          SUMMARY_ORIGIN_LLM_FALLBACK nmid with
      | error e =>
        have heq : summarize_map_reduce extract o cfg text word_count n = .error e := by
          simp [summarize_map_reduce, hone, hmc, hred]
        rw [heq] at h
        cases h
      | ok r2 =>
        obtain ⟨⟨raw, rorg⟩, nfin⟩ := r2
        have heq : summarize_map_reduce extract o cfg text word_count n =
            .ok ((truncate_to_word_limit (extract raw) word_count,
              if (os0 ++ [rorg]).contains SUMMARY_ORIGIN_LLM_FALLBACK
              then SUMMARY_ORIGIN_LLM_FALLBACK else SUMMARY_ORIGIN_LLM), nfin) := by
          simp [summarize_map_reduce, hone, hmc, hred]
        have h2 := heq.symm.trans h
        injection h2 with h1
        injection h1 with h2 h3
        injection h2 with h4 h5
        subst h5
        subst h3
        obtain ⟨hmid, _, hos⟩ := map_chunks_spec extract o cfg _ _ n ps0 os0 nmid hmc
        obtain ⟨hfin, hredcase⟩ :=
          invoke_with_fallback_cases o cfg _ _ nmid raw rorg nfin hred
        by_cases hcon :
            (os0 ++ [rorg]).contains SUMMARY_ORIGIN_LLM_FALLBACK = true
        · rw [if_pos hcon]
          refine ⟨Or.inr rfl, fun _ => ?_, fun _ => rfl⟩
          have hmem := (string_contains_iff _ _).mp hcon
          rcases List.mem_append.mp hmem with hm1 | hm2
          · obtain ⟨i, hge, hlt, hpn⟩ := hos.mp hm1
            exact ⟨i, hge, by omega, hpn⟩
          · have hrlf : rorg = SUMMARY_ORIGIN_LLM_FALLBACK :=
              (List.mem_singleton.mp hm2).symm
            rcases hredcase with ⟨ho, _⟩ | ⟨_, hpn⟩
            · rw [ho] at hrlf
              exact absurd hrlf (by decide)
            · exact ⟨nmid, by omega, by omega, hpn⟩
        · rw [if_neg (by simpa using hcon)]
          refine ⟨Or.inl rfl, ?_, ?_⟩
          · intro hc
            exact absurd hc (by decide)
          · rintro ⟨i, hge, hlt, hpn⟩
            exfalso
            apply hcon
            apply (string_contains_iff _ _).mpr
            by_cases hin : i < nmid
            · exact List.mem_append_left _ (hos.mpr ⟨i, hge, hin, hpn⟩)
            · have hieq : i = nmid := by omega
              subst hieq
              rcases hredcase with ⟨_, hps⟩ | ⟨ho, _⟩
              · rw [hps] at hpn
                cases hpn
              · rw [← ho]
                exact List.mem_append_right _ (List.mem_singleton.mpr rfl)

/-- Witness for C8 at a concrete one-chunk run (delegating to the
single-pass path). -/
theorem C8_map_reduce_origin_witness :
    summarize_map_reduce (fun l => l) (fun _ => ⟨some "S.".toList, none⟩) ⟨false⟩
        "w1 w2".toList 5 0 = .ok (("S.".toList, "llm"), 1) ∧
    (("llm" = SUMMARY_ORIGIN_LLM ∨ "llm" = SUMMARY_ORIGIN_LLM_FALLBACK) ∧
      ("llm" = SUMMARY_ORIGIN_LLM_FALLBACK ↔
        ∃ i, 0 ≤ i ∧ i < 1 ∧
          ((fun (_ : Nat) => (⟨some "S.".toList, none⟩ : StepOutcome)) i).primaryResult =
            none)) :=
  ⟨by decide,
    C8_map_reduce_origin (fun l => l) (fun _ => ⟨some "S.".toList, none⟩) ⟨false⟩
      "w1 w2".toList 5 0 "S.".toList "llm" 1 (by decide)⟩

/-! ## Lemmas for the URL normalizer and the fetcher -/

theorem char_toNat_ofNat (m : Nat) (h : m < 55296) : (Char.ofNat m).toNat = m := by
  unfold Char.ofNat
  split
  · rfl
  · rename_i hv
    exact absurd (Or.inl (by omega)) hv

theorem pyCharLower_idem (c : Char) : pyCharLower (pyCharLower c) = pyCharLower c := by
  unfold pyCharLower
  by_cases h : 65 ≤ c.toNat ∧ c.toNat ≤ 90
  · rw [if_pos h]
    have ht : (Char.ofNat (c.toNat + 32)).toNat = c.toNat + 32 :=
      char_toNat_ofNat _ (by omega)
    rw [if_neg (by rw [ht]; omega)]
  · rw [if_neg h, if_neg h]

theorem pyCharLower_cases (c : Char) :
    pyCharLower c = c ∨ (97 ≤ (pyCharLower c).toNat ∧ (pyCharLower c).toNat ≤ 122) := by
  unfold pyCharLower
  by_cases h : 65 ≤ c.toNat ∧ c.toNat ≤ 90
  · rw [if_pos h]
    right
    have ht : (Char.ofNat (c.toNat + 32)).toNat = c.toNat + 32 :=
      char_toNat_ofNat _ (by omega)
    omega
  · rw [if_neg h]
    left
    rfl

theorem pyCharLower_eq_special {c0 d : Char}
    (hd : ¬(97 ≤ d.toNat ∧ d.toNat ≤ 122)) (h : pyCharLower c0 = d) : c0 = d := by
  rcases pyCharLower_cases c0 with h1 | h2
  · rw [← h1]
    exact h
  · rw [h] at h2
    exact absurd h2 hd

/-- A redirect target whose host does not parse to wikipedia.org (or a
subdomain) makes the normalizer fail with `URLValidationError`. -/
theorem normalize_foreign_host (t : List Char)
    (h : targetHostIsWikipedia t = false) :
    normalize_wikipedia_url t = .error .validation := by
  unfold targetHostIsWikipedia at h
  cases hu : urlsplitM t with
  | none => simp [normalize_wikipedia_url, normalizeParts, hu]
  | some r =>
    have h' : (match hostnameM r.netloc with
        | none => false
        | some hst => isWikiHost hst) = false := by
      rw [hu] at h
      exact h
    have hv : validateParsedM r = .error .validation := by
      unfold validateParsedM
      by_cases hsch : r.scheme = "http".toList ∨ r.scheme = "https".toList
      · rw [if_neg (not_not_intro hsch)]
        cases hh : hostnameM r.netloc with
        | none => simp [hh]
        | some host =>
          have hw : isWikiHost host = false := by
            rw [hh] at h'
            exact h'
          simp [hh, hw]
      · rw [if_pos hsch]
    simp [normalize_wikipedia_url, normalizeParts, hu, hv]

/-- C9: whenever the redirect chain reaches, within the loop budget, a
redirect whose target host is not wikipedia.org or a subdomain of it,
the fetch fails with the re-raised `URLValidationError` (mapped to
`InvalidInput` by the orchestrator), never with `ScrapingError`. -/
theorem C9_foreign_redirect_raises_invalid_input
    (http : List Char → HttpResp) (join : List Char → List Char → List Char)
    (maxBytes : Nat) (u : List Char) (fuel : Nat)
    (h : ReachesForeignRedirect http join u fuel) :
    fetchLoop http join maxBytes fuel u = .error .urlValidation ∧
    fetchLoop http join maxBytes fuel u ≠ .error .scraping := by
  have hmain : fetchLoop http join maxBytes fuel u = .error .urlValidation := by
    induction h with
    | here hred hbad =>
      simp [fetchLoop, hred, normalize_foreign_host _ hbad]
    | step hred hnorm hr ih =>
      simp [fetchLoop, hred, hnorm, ih]
  refine ⟨hmain, ?_⟩
  rw [hmain]
  simp

/-- Witness for C9: a first response redirecting to example.com. -/
theorem C9_foreign_redirect_raises_invalid_input_witness :
    fetchLoop
        (fun u => if u = "https://en.wikipedia.org/wiki/AI".toList
          then HttpResp.redirect (some "https://example.com/wiki/AI".toList)
          else HttpResp.httpError)
        (fun _ loc => loc) 4096 1 "https://en.wikipedia.org/wiki/AI".toList =
      .error .urlValidation ∧
    fetchLoop
        (fun u => if u = "https://en.wikipedia.org/wiki/AI".toList
          then HttpResp.redirect (some "https://example.com/wiki/AI".toList)
          else HttpResp.httpError)
        (fun _ loc => loc) 4096 1 "https://en.wikipedia.org/wiki/AI".toList ≠
      .error .scraping :=
  C9_foreign_redirect_raises_invalid_input
    (fun u => if u = "https://en.wikipedia.org/wiki/AI".toList
      then HttpResp.redirect (some "https://example.com/wiki/AI".toList)
      else HttpResp.httpError)
    (fun _ loc => loc) 4096 "https://en.wikipedia.org/wiki/AI".toList 1
    (@ReachesForeignRedirect.here
      (fun u => if u = "https://en.wikipedia.org/wiki/AI".toList
        then HttpResp.redirect (some "https://example.com/wiki/AI".toList)
        else HttpResp.httpError)
      (fun _ loc => loc)
      "https://en.wikipedia.org/wiki/AI".toList
      "https://example.com/wiki/AI".toList 0 (by decide) (by decide))

theorem splitAtFirst_fst_not (p : Char → Bool) :
    ∀ cs a b, splitAtFirst p cs = (a, b) → ∀ c ∈ a, p c = false := by
  intro cs
  induction cs with
  | nil =>
    intro a b h c hc
    injection h with h1 _
    subst h1
    simp at hc
  | cons c0 rest ih =>
    intro a b h c hc
    simp only [splitAtFirst] at h
    split at h
    · injection h with h1 _
      subst h1
      simp at hc
    · rename_i hp
      injection h with h1 h2
      subst h1
      rcases List.mem_cons.mp hc with he | ht
      · subst he
        cases hx : p c
        · rfl
        · exact absurd hx (by simpa using hp)
      · exact ih (splitAtFirst p rest).1 (splitAtFirst p rest).2 rfl c ht

theorem splitAtFirst_subset (p : Char → Bool) :
    ∀ cs a b, splitAtFirst p cs = (a, b) →
      (∀ x ∈ a, x ∈ cs) ∧ (∀ bs, b = some bs → ∀ x ∈ bs, x ∈ cs) := by
  intro cs
  induction cs with
  | nil =>
    intro a b h
    injection h with h1 h2
    subst h1
    subst h2
    exact ⟨by simp, by simp⟩
  | cons c0 rest ih =>
    intro a b h
    simp only [splitAtFirst] at h
    split at h
    · injection h with h1 h2
      subst h1
      subst h2
      refine ⟨by simp, ?_⟩
      intro bs hbs x hx
      cases hbs
      exact List.mem_cons_of_mem _ hx
    · injection h with h1 h2
      subst h1
      subst h2
      obtain ⟨hA, hB⟩ := ih (splitAtFirst p rest).1 (splitAtFirst p rest).2 rfl
      refine ⟨?_, ?_⟩
      · intro x hx
        rcases List.mem_cons.mp hx with he | ht
        · simp [he]
        · exact List.mem_cons_of_mem _ (hA x ht)
      · intro bs hbs x hx
        exact List.mem_cons_of_mem _ (hB bs hbs x hx)

theorem splitAtFirst_none_of (p : Char → Bool) :
    ∀ cs, (∀ c ∈ cs, p c = false) → splitAtFirst p cs = (cs, none) := by
  intro cs
  induction cs with
  | nil => intro _; rfl
  | cons c0 rest ih =>
    intro h
    simp only [splitAtFirst]
    rw [if_neg (by simp [h c0 (by simp)])]
    rw [ih (fun c hc => h c (by simp [hc]))]

theorem splitAtFirst_append (p : Char → Bool) (c0 : Char) (ys : List Char)
    (hc0 : p c0 = true) :
    ∀ xs, (∀ c ∈ xs, p c = false) →
      splitAtFirst p (xs ++ c0 :: ys) = (xs, some ys) := by
  intro xs
  induction xs with
  | nil =>
    intro _
    simp only [List.nil_append, splitAtFirst]
    rw [if_pos hc0]
  | cons x xs' ih =>
    intro h
    have hx : p x = false := h x (by simp)
    show (if p x then (([] : List Char), some (xs' ++ c0 :: ys))
      else (x :: (splitAtFirst p (xs' ++ c0 :: ys)).1,
        (splitAtFirst p (xs' ++ c0 :: ys)).2)) = (x :: xs', some ys)
    rw [if_neg (by simp [hx]), ih (fun c hc => h c (by simp [hc]))]

theorem takeWhile_append_all (q : Char → Bool) (ys : List Char) :
    ∀ xs, (∀ c ∈ xs, q c = true) →
      (xs ++ ys).takeWhile q = xs ++ ys.takeWhile q := by
  intro xs
  induction xs with
  | nil => intro _; rfl
  | cons x xs' ih =>
    intro h
    rw [List.cons_append, List.takeWhile_cons, if_pos (h x (by simp)),
      ih (fun c hc => h c (by simp [hc])), List.cons_append]

theorem dropWhile_append_all (q : Char → Bool) (ys : List Char) :
    ∀ xs, (∀ c ∈ xs, q c = true) →
      (xs ++ ys).dropWhile q = ys.dropWhile q := by
  intro xs
  induction xs with
  | nil => intro _; rfl
  | cons x xs' ih =>
    intro h
    rw [List.cons_append, List.dropWhile_cons, if_pos (h x (by simp)),
      ih (fun c hc => h c (by simp [hc]))]

theorem contains_eq_false_of {a : Char} {l : List Char}
    (h : ∀ c ∈ l, c ≠ a) : l.contains a = false := by
  induction l with
  | nil => rfl
  | cons b m ih =>
    have hb : (a == b) = false := by
      have := h b (by simp)
      simp [BEq.beq]
      intro hc
      exact absurd hc.symm this
    show (a == b || m.contains a) = false
    rw [hb, ih (fun c hc => h c (by simp [hc]))]
    rfl

theorem afterLastAtSign_no_at (l : List Char) :
    ∀ c ∈ afterLastAtSign l, c ≠ '@' := by
  intro c hc
  unfold afterLastAtSign at hc
  rw [List.mem_reverse] at hc
  have := List.mem_takeWhile_imp hc
  simpa using this

theorem afterLastAtSign_subset (l : List Char) :
    ∀ c ∈ afterLastAtSign l, c ∈ l := by
  intro c hc
  unfold afterLastAtSign at hc
  rw [List.mem_reverse] at hc
  have h1 := (List.takeWhile_sublist _).subset hc
  exact List.mem_reverse.mp h1

theorem afterLastAtSign_id (l : List Char) (h : ∀ c ∈ l, c ≠ '@') :
    afterLastAtSign l = l := by
  unfold afterLastAtSign
  rw [List.takeWhile_eq_self_iff.mpr ?_]
  · exact List.reverse_reverse l
  · intro c hc
    have := h c (List.mem_reverse.mp hc)
    simpa using this

theorem hasStart_iff (pfx : List Char) :
    ∀ l, hasStart pfx l = true ↔ ∃ t, l = pfx ++ t := by
  induction pfx with
  | nil =>
    intro l
    simp [hasStart]
  | cons p ps ih =>
    intro l
    cases l with
    | nil =>
      simp only [hasStart]
      constructor
      · intro h
        cases h
      · rintro ⟨t, ht⟩
        simp at ht
    | cons c cs =>
      simp only [hasStart, Bool.and_eq_true, decide_eq_true_eq, ih cs]
      constructor
      · rintro ⟨he, t, ht⟩
        exact ⟨t, by simp [he, ht]⟩
      · rintro ⟨t, ht⟩
        rw [List.cons_append] at ht
        injection ht with h1 h2
        exact ⟨h1.symm, t, h2⟩

theorem natChars_ne_nil (n : Nat) : natChars n ≠ [] := by
  rw [natChars]
  split
  · simp
  · simp

theorem natChars_digits (n : Nat) :
    ∀ c ∈ natChars n, 48 ≤ c.toNat ∧ c.toNat ≤ 57 := by
  induction n using Nat.strong_induction_on with
  | _ n ih =>
    intro c hc
    rw [natChars] at hc
    split at hc
    · rename_i hlt
      simp only [List.mem_singleton] at hc
      subst hc
      rw [char_toNat_ofNat _ (by omega)]
      omega
    · rename_i hge
      rcases List.mem_append.mp hc with h1 | h2
      · exact ih (n / 10) (Nat.div_lt_self (by omega) (by omega)) c h1
      · simp only [List.mem_singleton] at h2
        subst h2
        have : n % 10 < 10 := Nat.mod_lt n (by omega)
        rw [char_toNat_ofNat _ (by omega)]
        omega

theorem parseDigitsAux_append (xs ys : List Char) :
    ∀ acc, parseDigitsAux acc (xs ++ ys) =
      match parseDigitsAux acc xs with
      | some a => parseDigitsAux a ys
      | none => none := by
  induction xs with
  | nil => intro acc; rfl
  | cons x xs' ih =>
    intro acc
    simp only [List.cons_append, parseDigitsAux]
    split
    · exact ih _
    · rfl

theorem parseDigitsAux_natChars (n : Nat) :
    ∀ acc, parseDigitsAux acc (natChars n) =
      some (acc * 10 ^ (natChars n).length + n) := by
  induction n using Nat.strong_induction_on with
  | _ n ih =>
    intro acc
    rw [natChars]
    split
    · rename_i hlt
      have ht : (Char.ofNat (48 + n)).toNat = 48 + n := char_toNat_ofNat _ (by omega)
      have hdig : isDigitChar (Char.ofNat (48 + n)) = true := by
        simp [isDigitChar, ht]
        omega
      simp only [parseDigitsAux, hdig, if_true, digitVal, ht]
      simp
      omega
    · rename_i hge
      rw [parseDigitsAux_append]
      rw [ih (n / 10) (Nat.div_lt_self (by omega) (by omega)) acc]
      have hm : n % 10 < 10 := Nat.mod_lt n (by omega)
      have ht : (Char.ofNat (48 + n % 10)).toNat = 48 + n % 10 :=
        char_toNat_ofNat _ (by omega)
      have hdig : isDigitChar (Char.ofNat (48 + n % 10)) = true := by
        simp [isDigitChar, ht]
        omega
      simp only [parseDigitsAux, hdig, if_true, digitVal, ht]
      have hlen : (natChars (n / 10) ++ [Char.ofNat (48 + n % 10)]).length =
        (natChars (n / 10)).length + 1 := by simp
      rw [hlen]
      congr 1
      have : n = 10 * (n / 10) + n % 10 := (Nat.div_add_mod n 10).symm ▸ by omega
      rw [pow_succ]
      ring_nf
      omega

theorem parseDigits_natChars (n : Nat) : parseDigits (natChars n) = some n := by
  unfold parseDigits
  rw [if_neg (by simpa using natChars_ne_nil n)]
  rw [parseDigitsAux_natChars n 0]
  simp

/-- C4 (counterexample): the normalizer is not idempotent: a path with a
doubled trailing slash normalizes to `/wiki/x/`, which normalizes again
to the different URL `/wiki/x`. -/
theorem C4_normalize_counterexample :
    normalize_wikipedia_url "https://en.wikipedia.org/wiki/x//".toList =
      .ok "https://en.wikipedia.org/wiki/x/".toList ∧
    normalize_wikipedia_url "https://en.wikipedia.org/wiki/x/".toList =
      .ok "https://en.wikipedia.org/wiki/x".toList ∧
    ("https://en.wikipedia.org/wiki/x/".toList ≠
      "https://en.wikipedia.org/wiki/x".toList) := by
  refine ⟨?_, ?_, ?_⟩ <;> decide

theorem char_toNat_lt (c : Char) : c.toNat < 1114112 := by
  have h := c.valid
  have he : c.toNat = c.val.toNat := rfl
  rcases h with h1 | ⟨h2, h3⟩ <;> omega

theorem utf8Bytes_lt (n : Nat) (hn : n < 1114112) : ∀ b ∈ utf8Bytes n, b < 256 := by
  intro b hb
  unfold utf8Bytes at hb
  split at hb
  · simp only [List.mem_singleton] at hb
    omega
  · split at hb
    · simp only [List.mem_cons, List.not_mem_nil, or_false] at hb
      rcases hb with rfl | rfl <;> omega
    · split at hb
      · simp only [List.mem_cons, List.not_mem_nil, or_false] at hb
        rcases hb with rfl | rfl | rfl <;> omega
      · simp only [List.mem_cons, List.not_mem_nil, or_false] at hb
        rcases hb with rfl | rfl | rfl | rfl <;> omega

theorem hexUpper_toNat (d : Nat) (hd : d < 16) :
    (48 ≤ (hexUpper d).toNat ∧ (hexUpper d).toNat ≤ 57) ∨
    (65 ≤ (hexUpper d).toNat ∧ (hexUpper d).toNat ≤ 70) := by
  unfold hexUpper
  split
  · left
    rw [char_toNat_ofNat _ (by omega)]
    omega
  · right
    rw [char_toNat_ofNat _ (by omega)]
    omega

theorem quoteM_chars (s : List Char) :
    ∀ c ∈ quoteM s, c ≠ '?' ∧ c ≠ '#' ∧ isUnsafeUrlChar c = false := by
  intro c hc
  unfold quoteM at hc
  rw [List.mem_flatten] at hc
  obtain ⟨piece, hpiece, hcp⟩ := hc
  rw [List.mem_map] at hpiece
  obtain ⟨c0, _, rfl⟩ := hpiece
  by_cases hsafe : (quoteAlwaysSafe c0 || quoteSafeExtra c0) = true
  · rw [if_pos hsafe] at hcp
    simp only [List.mem_singleton] at hcp
    refine ⟨?_, ?_, ?_⟩
    · intro he
      rw [hcp] at he
      rw [he] at hsafe
      exact absurd hsafe (by decide)
    · intro he
      rw [hcp] at he
      rw [he] at hsafe
      exact absurd hsafe (by decide)
    · rw [hcp]
      cases hx : isUnsafeUrlChar c0
      · rfl
      · exfalso
        simp only [isUnsafeUrlChar, Bool.or_eq_true, decide_eq_true_eq] at hx
        rcases hx with (rfl | rfl) | rfl <;> exact absurd hsafe (by decide)
  · rw [if_neg hsafe] at hcp
    rw [List.mem_flatten] at hcp
    obtain ⟨trip, htrip, hct⟩ := hcp
    rw [List.mem_map] at htrip
    obtain ⟨b, hb, rfl⟩ := htrip
    have hblt : b < 256 := utf8Bytes_lt c0.toNat (char_toNat_lt c0) b hb
    simp only [List.mem_cons, List.not_mem_nil, or_false] at hct
    have hhex : ∀ d : Nat, d < 16 → hexUpper d ≠ '?' ∧ hexUpper d ≠ '#' ∧
        isUnsafeUrlChar (hexUpper d) = false := by
      intro d hd
      have ht := hexUpper_toNat d hd
      refine ⟨?_, ?_, ?_⟩
      · intro he
        have := congrArg Char.toNat he
        simp only [show ('?' : Char).toNat = 63 from rfl] at this
        omega
      · intro he
        have := congrArg Char.toNat he
        simp only [show ('#' : Char).toNat = 35 from rfl] at this
        omega
      · cases hx : isUnsafeUrlChar (hexUpper d)
        · rfl
        · exfalso
          simp only [isUnsafeUrlChar, Bool.or_eq_true, decide_eq_true_eq] at hx
          rcases hx with (he | he) | he
          · have h9 := congrArg Char.toNat he
            rw [show ('\t' : Char).toNat = 9 from rfl] at h9
            omega
          · have h9 := congrArg Char.toNat he
            rw [show ('\r' : Char).toNat = 13 from rfl] at h9
            omega
          · have h9 := congrArg Char.toNat he
            rw [show ('\n' : Char).toNat = 10 from rfl] at h9
            omega
    rcases hct with rfl | rfl | rfl
    · exact ⟨by decide, by decide, by decide⟩
    · exact hhex (b / 16) (by omega)
    · exact hhex (b % 16) (by omega)

theorem splitTail_fst (p : Char → Bool) (x : List Char) :
    (splitTail p x).1 = (splitAtFirst p x).1 := by
  unfold splitTail
  rcases hsp : splitAtFirst p x with ⟨a, b⟩
  cases b <;> simp

theorem splitSchemeM_snd_subset (x : List Char) :
    ∀ c ∈ (splitSchemeM x).2, c ∈ x := by
  intro c hc
  unfold splitSchemeM at hc
  rcases hsp : splitAtFirst (fun c => c = ':') x with ⟨a, b⟩
  rw [hsp] at hc
  cases b with
  | none => exact hc
  | some rest =>
    have hc' : c ∈ (if (!a.isEmpty
        && (match a.head? with | some c => c.isAlpha | none => false)
        && a.all isSchemeChar) = true
        then (List.map pyCharLower a, rest) else ([], x)).2 := hc
    by_cases hcond : (!a.isEmpty
        && (match a.head? with | some c => c.isAlpha | none => false)
        && a.all isSchemeChar) = true
    · rw [if_pos hcond] at hc'
      exact (splitAtFirst_subset _ x a (some rest) hsp).2 rest rfl c hc'
    · rw [if_neg hcond] at hc'
      exact hc'

theorem splitNetlocM_netloc (y : List Char) :
    ∀ c ∈ (splitNetlocM y).1, (c ≠ '/' ∧ c ≠ '?' ∧ c ≠ '#') ∧ c ∈ y := by
  intro c hc
  unfold splitNetlocM at hc
  split at hc
  · rename_i rest
    have hp := List.mem_takeWhile_imp hc
    have hm : c ∈ rest := (List.takeWhile_sublist _).subset hc
    constructor
    · simp only [Bool.or_eq_true, decide_eq_true_eq, not_or,
        decide_not, Bool.not_eq_true', decide_eq_false_iff_not] at hp
      exact ⟨hp.1.1, hp.1.2, hp.2⟩
    · exact List.mem_cons_of_mem _ (List.mem_cons_of_mem _ hm)
  · simp at hc

theorem splitNetlocM_snd_subset (y : List Char) :
    ∀ c ∈ (splitNetlocM y).2, c ∈ y := by
  intro c hc
  unfold splitNetlocM at hc
  split at hc
  · exact List.mem_cons_of_mem _
      (List.mem_cons_of_mem _ ((List.dropWhile_sublist _).subset hc))
  · exact hc

theorem urlsplitM_inv (u : List Char) (r : SplitResultM) (h : urlsplitM u = some r) :
    (∀ c ∈ r.netloc, (c ≠ '/' ∧ c ≠ '?' ∧ c ≠ '#') ∧ isUnsafeUrlChar c = false) ∧
    (∀ c ∈ r.path, c ≠ '?' ∧ c ≠ '#' ∧ isUnsafeUrlChar c = false) := by
  have hu1 : ∀ c ∈ u.filter (fun c => ¬ isUnsafeUrlChar c),
      isUnsafeUrlChar c = false := by
    intro c hc
    have := List.mem_filter.mp hc
    simpa using this.2
  simp only [urlsplitM] at h
  split at h
  · cases h
  · injection h with h1
    subst h1
    constructor
    · intro c hc
      have hfacts := splitNetlocM_netloc _ c hc
      exact ⟨hfacts.1, hu1 c (splitSchemeM_snd_subset _ c hfacts.2)⟩
    · intro c hc
      rw [splitTail_fst] at hc
      have hq := splitAtFirst_fst_not _ _ _ _ rfl c hc
      have hc2 := (splitAtFirst_subset _ _ _ _ rfl).1 c hc
      rw [splitTail_fst] at hc2
      have hh := splitAtFirst_fst_not _ _ _ _ rfl c hc2
      have hc3 := (splitAtFirst_subset _ _ _ _ rfl).1 c hc2
      have hc4 := splitNetlocM_snd_subset _ c hc3
      have hc5 := splitSchemeM_snd_subset _ c hc4
      refine ⟨?_, ?_, hu1 c hc5⟩
      · simpa using hq
      · simpa using hh

theorem hostinfoM_fst_subset (nl : List Char) :
    ∀ c ∈ (hostinfoM nl).1, c ∈ afterLastAtSign nl := by
  intro c hc
  simp only [hostinfoM] at hc
  split at hc
  · rcases hb : splitAtFirst (fun c => c = '[') (afterLastAtSign nl) with ⟨a0, b0⟩
    rw [hb] at hc
    cases b0 with
    | none =>
      have hx : c ∈ (splitAtFirst (fun c => c = ']') ([] : List Char)).1 := hc
      simp [splitAtFirst] at hx
    | some rest =>
      have hx : c ∈ (splitAtFirst (fun c => c = ']') rest).1 := hc
      have hrest : c ∈ rest := (splitAtFirst_subset _ rest _ _ rfl).1 c hx
      exact (splitAtFirst_subset _ _ a0 (some rest) hb).2 rest rfl c hrest
  · have hx : c ∈ (splitAtFirst (fun c => c = ':') (afterLastAtSign nl)).1 := hc
    exact (splitAtFirst_subset _ _ _ _ rfl).1 c hx

theorem hostnameM_inv (nl host : List Char) (h : hostnameM nl = some host) :
    host = (hostinfoM nl).1.map pyCharLower ∧ (hostinfoM nl).1 ≠ [] := by
  simp only [hostnameM] at h
  split at h
  · cases h
  · rename_i hne
    injection h with h1
    exact ⟨h1.symm, by simpa using hne⟩

theorem validateParsedM_inv (r : SplitResultM) (host : List Char)
    (h : validateParsedM r = .ok host) :
    hostnameM r.netloc = some host ∧ isWikiHost host = true := by
  unfold validateParsedM at h
  split at h
  · cases h
  · cases hh : hostnameM r.netloc with
    | none =>
      rw [hh] at h
      cases h
    | some h0 =>
      have h' : (if isWikiHost h0 = true then Except.ok h0
          else Except.error NormErr.validation) = Except.ok host := by
        rw [hh] at h
        exact h
      split at h'
      · rename_i hw
        injection h' with he
        rw [← he]
        exact ⟨rfl, hw⟩
      · cases h'

/-! ### Idempotence of the normalizer (C4): inversion and reparse lemmas -/

theorem char_ne_of_toNat {c d : Char} (h : c.toNat ≠ d.toNat) : c ≠ d :=
  fun he => h (congrArg Char.toNat he)

theorem unsafe_false_of_toNat {c : Char} (h9 : c.toNat ≠ 9) (h13 : c.toNat ≠ 13)
    (h10 : c.toNat ≠ 10) : isUnsafeUrlChar c = false := by
  cases hx : isUnsafeUrlChar c
  · rfl
  · exfalso
    simp only [isUnsafeUrlChar, Bool.or_eq_true, decide_eq_true_eq] at hx
    rcases hx with (rfl | rfl) | rfl
    · exact h9 rfl
    · exact h13 rfl
    · exact h10 rfl

theorem portStr_char_props {c : Char}
    (h : c.toNat = 58 ∨ (48 ≤ c.toNat ∧ c.toNat ≤ 57)) :
    c ≠ '/' ∧ c ≠ '?' ∧ c ≠ '#' ∧ c ≠ '@' ∧ c ≠ '[' ∧ c ≠ ']' ∧
      isUnsafeUrlChar c = false := by
  refine ⟨?_, ?_, ?_, ?_, ?_, ?_, ?_⟩
  · exact char_ne_of_toNat (by rw [show ('/' : Char).toNat = 47 from rfl]; omega)
  · exact char_ne_of_toNat (by rw [show ('?' : Char).toNat = 63 from rfl]; omega)
  · exact char_ne_of_toNat (by rw [show ('#' : Char).toNat = 35 from rfl]; omega)
  · exact char_ne_of_toNat (by rw [show ('@' : Char).toNat = 64 from rfl]; omega)
  · exact char_ne_of_toNat (by rw [show ('[' : Char).toNat = 91 from rfl]; omega)
  · exact char_ne_of_toNat (by rw [show (']' : Char).toNat = 93 from rfl]; omega)
  · exact unsafe_false_of_toNat (by omega) (by omega) (by omega)

theorem portStrChars (n : Nat) :
    ∀ c ∈ ':' :: natChars n, c.toNat = 58 ∨ (48 ≤ c.toNat ∧ c.toNat ≤ 57) := by
  intro c hc
  rcases List.mem_cons.mp hc with rfl | hm
  · left
    rfl
  · right
    exact natChars_digits n c hm

theorem filter_true_of (p2 : Char → Bool) :
    ∀ l : List Char, (∀ c ∈ l, p2 c = true) → l.filter p2 = l := by
  intro l
  induction l with
  | nil => intro _; rfl
  | cons a m ih =>
    intro hall
    have hpa := hall a (List.mem_cons_self a m)
    simp only [List.filter, hpa]
    rw [ih (fun c hc => hall c (List.mem_cons_of_mem a hc))]

theorem splitSchemeM_https (rest : List Char) :
    splitSchemeM ("https".toList ++ ':' :: rest) = ("https".toList, rest) := rfl

theorem portM_ok_bound (nl : List Char) (n : Nat)
    (h : portM nl = .ok (some n)) : n ≤ 65535 := by
  simp only [portM] at h
  split at h
  · injection h with h1
    exact Option.noConfusion h1
  · split at h
    · rename_i m hm
      split at h
      · rename_i hle
        injection h with h1
        injection h1 with h2
        omega
      · cases h
    · cases h

theorem path0Of_chars (rp : List Char) :
    ∀ c ∈ path0Of rp, c = '/' ∨ c ∈ rp := by
  intro c hc
  unfold path0Of at hc
  split at hc
  · simp only [List.mem_singleton] at hc
    exact Or.inl hc
  · exact Or.inr hc

theorem stripTrailingSlash_subset (p0 : List Char) :
    ∀ c ∈ stripTrailingSlash p0, c ∈ p0 := by
  intro c hc
  unfold stripTrailingSlash at hc
  split at hc
  · exact (List.dropLast_sublist p0).subset hc
  · exact hc

theorem rewriteIndex_fst_cases (p1 q : List Char) :
    (rewriteIndex p1 q).1 = p1 ∨
    ∃ t, (rewriteIndex p1 q).1 = "/wiki/".toList ++ quoteM (underscoreSpaces t) := by
  unfold rewriteIndex
  split
  · split
    · split
      · right
        exact ⟨_, rfl⟩
      · left
        rfl
    · left
      rfl
  · left
    rfl

theorem finishPath_inv (p1 q pth : List Char) (h : finishPath p1 q = .ok pth) :
    hasStart "/wiki/".toList pth = true ∧
    (pth = p1 ∨ ∃ t, pth = "/wiki/".toList ++ quoteM (underscoreSpaces t)) := by
  simp only [finishPath] at h
  split at h
  · split at h
    · cases h
    · split at h
      · cases h
      · rename_i hstart
        injection h with h1
        subst h1
        refine ⟨not_not.mp hstart, ?_⟩
        rcases rewriteIndex_fst_cases p1 q with he | ⟨t, he⟩
        · exact Or.inl he
        · exact Or.inr ⟨t, he⟩
  · split at h
    · cases h
    · rename_i hstart
      injection h with h1
      subst h1
      exact ⟨not_not.mp hstart, Or.inl rfl⟩

theorem keptPortOf_inv (port0 : Option Nat) (m : Nat)
    (h : keptPortOf port0 = some m) :
    m ≠ 0 ∧ m ≠ 80 ∧ m ≠ 443 ∧ port0 = some m := by
  cases port0 with
  | none =>
    simp only [keptPortOf] at h
    exact Option.noConfusion h
  | some k =>
    simp only [keptPortOf] at h
    split at h
    · rename_i hcond
      injection h with h1
      subst h1
      exact ⟨hcond.1, hcond.2.1, hcond.2.2, rfl⟩
    · cases h

theorem keptPortOf_eq_self (port0 : Option Nat)
    (h : ∀ n, port0 = some n → n ≠ 0 ∧ n ≠ 80 ∧ n ≠ 443) :
    keptPortOf port0 = port0 := by
  cases port0 with
  | none => rfl
  | some k =>
    simp only [keptPortOf]
    rw [if_pos (h k rfl)]

theorem normalizeParts_inv (u : List Char) (p : UrlParts)
    (h : normalizeParts u = .ok p) :
    p.host ≠ [] ∧
    p.host.map pyCharLower = p.host ∧
    isWikiHost p.host = true ∧
    (∀ c ∈ p.host, c ≠ '/' ∧ c ≠ '?' ∧ c ≠ '#' ∧ c ≠ '@' ∧
      isUnsafeUrlChar c = false) ∧
    (∀ n, p.port = some n → n ≤ 65535 ∧ n ≠ 0 ∧ n ≠ 80 ∧ n ≠ 443) ∧
    hasStart "/wiki/".toList p.path = true ∧
    (∀ c ∈ p.path, c ≠ '?' ∧ c ≠ '#' ∧ isUnsafeUrlChar c = false) := by
  cases hu : urlsplitM u with
  | none =>
    simp only [normalizeParts, hu] at h
    exact Except.noConfusion h
  | some r =>
    cases hv : validateParsedM r with
    | error e =>
      simp only [normalizeParts, hu, hv] at h
      exact Except.noConfusion h
    | ok host =>
      cases hp : portM r.netloc with
      | error e =>
        simp only [normalizeParts, hu, hv, hp] at h
        exact Except.noConfusion h
      | ok port0 =>
        cases hf : finishPath (stripTrailingSlash (path0Of r.path)) r.query with
        | error e =>
          simp only [normalizeParts, hu, hv, hp, hf] at h
          exact Except.noConfusion h
        | ok pth =>
          simp only [normalizeParts, hu, hv, hp, hf] at h
          injection h with h1
          obtain ⟨hhn, hwiki⟩ := validateParsedM_inv r host hv
          obtain ⟨hmap, hfne⟩ := hostnameM_inv r.netloc host hhn
          obtain ⟨hnlc, hpac⟩ := urlsplitM_inv u r hu
          obtain ⟨hfstart, hfcases⟩ := finishPath_inv _ _ _ hf
          subst h1
          refine ⟨?_, ?_, ?_, ?_, ?_, ?_, ?_⟩
          · show host ≠ []
            intro he
            rw [he] at hmap
            exact hfne (List.map_eq_nil_iff.mp hmap.symm)
          · show host.map pyCharLower = host
            rw [hmap, List.map_map]
            exact List.map_congr_left fun a _ => pyCharLower_idem a
          · exact hwiki
          · show ∀ c ∈ host, _
            intro c hc
            rw [hmap] at hc
            obtain ⟨c0, hc0, rfl⟩ := List.mem_map.mp hc
            have hc0a : c0 ∈ afterLastAtSign r.netloc :=
              hostinfoM_fst_subset r.netloc c0 hc0
            have hc0n : c0 ∈ r.netloc := afterLastAtSign_subset r.netloc c0 hc0a
            have hnet := hnlc c0 hc0n
            have hat := afterLastAtSign_no_at r.netloc c0 hc0a
            refine ⟨?_, ?_, ?_, ?_, ?_⟩
            · intro he
              exact hnet.1.1 (pyCharLower_eq_special (by decide) he)
            · intro he
              exact hnet.1.2.1 (pyCharLower_eq_special (by decide) he)
            · intro he
              exact hnet.1.2.2 (pyCharLower_eq_special (by decide) he)
            · intro he
              exact hat (pyCharLower_eq_special (by decide) he)
            · cases hx : isUnsafeUrlChar (pyCharLower c0)
              · rfl
              · exfalso
                simp only [isUnsafeUrlChar, Bool.or_eq_true,
                  decide_eq_true_eq] at hx
                rcases hx with (he | he) | he
                · have hce := pyCharLower_eq_special (by decide) he
                  have h2 := hnet.2
                  rw [hce] at h2
                  exact absurd h2 (by decide)
                · have hce := pyCharLower_eq_special (by decide) he
                  have h2 := hnet.2
                  rw [hce] at h2
                  exact absurd h2 (by decide)
                · have hce := pyCharLower_eq_special (by decide) he
                  have h2 := hnet.2
                  rw [hce] at h2
                  exact absurd h2 (by decide)
          · show ∀ n, keptPortOf port0 = some n → _
            intro n hn
            obtain ⟨h0, h80, h443, hpeq⟩ := keptPortOf_inv port0 n hn
            refine ⟨?_, h0, h80, h443⟩
            exact portM_ok_bound r.netloc n (by rw [hp, hpeq])
          · exact hfstart
          · show ∀ c ∈ pth, _
            intro c hc
            rcases hfcases with he | ⟨t, he⟩
            · rw [he] at hc
              have hc2 := stripTrailingSlash_subset _ c hc
              rcases path0Of_chars _ c hc2 with rfl | hm
              · exact ⟨by decide, by decide, by decide⟩
              · exact hpac c hm
            · rw [he] at hc
              rcases List.mem_append.mp hc with h6 | hqc
              · have h6x : c ∈ ['/', 'w', 'i', 'k', 'i', '/'] := h6
                simp only [List.mem_cons, List.not_mem_nil, or_false] at h6x
                rcases h6x with rfl | rfl | rfl | rfl | rfl | rfl <;>
                  exact ⟨by decide, by decide, by decide⟩
              · exact quoteM_chars _ c hqc

theorem netlocSplit_render (host ps t : List Char)
    (hhost : ∀ c ∈ host, c ≠ '/' ∧ c ≠ '?' ∧ c ≠ '#')
    (hps : ∀ c ∈ ps, c.toNat = 58 ∨ (48 ≤ c.toNat ∧ c.toNat ≤ 57)) :
    splitNetlocM ('/' :: '/' :: (host ++ (ps ++ ('/' :: t)))) =
      (host ++ ps, '/' :: t) := by
  have hqh : ∀ c ∈ host,
      ((fun c => ¬(c = '/' || c = '?' || c = '#')) : Char → Bool) c = true := by
    intro c hc
    obtain ⟨h1, h2, h3⟩ := hhost c hc
    simp [h1, h2, h3]
  have hqp : ∀ c ∈ ps,
      ((fun c => ¬(c = '/' || c = '?' || c = '#')) : Char → Bool) c = true := by
    intro c hc
    have hp7 := portStr_char_props (hps c hc)
    simp [hp7.1, hp7.2.1, hp7.2.2.1]
  simp only [splitNetlocM]
  rw [takeWhile_append_all _ _ host hqh, takeWhile_append_all _ _ ps hqp,
      dropWhile_append_all _ _ host hqh, dropWhile_append_all _ _ ps hqp,
      List.takeWhile_cons, if_neg (by decide), List.dropWhile_cons,
      if_neg (by decide)]
  simp

theorem urlsplitM_render (host ps t : List Char)
    (hhost : ∀ c ∈ host, c ≠ '/' ∧ c ≠ '?' ∧ c ≠ '#' ∧ c ≠ '[' ∧ c ≠ ']' ∧
      isUnsafeUrlChar c = false)
    (hps : ∀ c ∈ ps, c.toNat = 58 ∨ (48 ≤ c.toNat ∧ c.toNat ≤ 57))
    (hpathc : ∀ c ∈ '/' :: t, c ≠ '?' ∧ c ≠ '#' ∧ isUnsafeUrlChar c = false) :
    urlsplitM ("https".toList ++ ':' :: '/' :: '/' :: (host ++ (ps ++ ('/' :: t)))) =
      some ⟨"https".toList, host ++ ps, '/' :: t, [], []⟩ := by
  have hfil : List.filter (fun c => ¬ isUnsafeUrlChar c)
      ("https".toList ++ ':' :: '/' :: '/' :: (host ++ (ps ++ ('/' :: t)))) =
      "https".toList ++ ':' :: '/' :: '/' :: (host ++ (ps ++ ('/' :: t))) := by
    apply filter_true_of
    intro c hc
    have hun : isUnsafeUrlChar c = false := by
      rcases List.mem_append.mp hc with hA | hB
      · have hAx : c ∈ ['h', 't', 't', 'p', 's'] := hA
        simp only [List.mem_cons, List.not_mem_nil, or_false] at hAx
        rcases hAx with rfl | rfl | rfl | rfl | rfl <;> decide
      · rcases List.mem_cons.mp hB with rfl | hB1
        · decide
        · rcases List.mem_cons.mp hB1 with rfl | hB2
          · decide
          · rcases List.mem_cons.mp hB2 with rfl | hB3
            · decide
            · rcases List.mem_append.mp hB3 with hH | hPS
              · exact (hhost c hH).2.2.2.2.2
              · rcases List.mem_append.mp hPS with hP | hT
                · exact (portStr_char_props (hps c hP)).2.2.2.2.2.2
                · exact (hpathc c hT).2.2
    simp [hun]
  have hsharp : splitTail (fun c => c = '#') ('/' :: t) =
      ('/' :: t, ([] : List Char)) := by
    have hno : ∀ c ∈ '/' :: t, (fun c => decide (c = '#')) c = false := by
      intro c hc
      simp [(hpathc c hc).2.1]
    unfold splitTail
    rw [splitAtFirst_none_of _ ('/' :: t) hno]
  have hquest : splitTail (fun c => c = '?') ('/' :: t) =
      ('/' :: t, ([] : List Char)) := by
    have hno : ∀ c ∈ '/' :: t, (fun c => decide (c = '?')) c = false := by
      intro c hc
      simp [(hpathc c hc).1]
    unfold splitTail
    rw [splitAtFirst_none_of _ ('/' :: t) hno]
  have hnb1 : (host ++ ps).contains '[' = false := by
    apply contains_eq_false_of
    intro c hc
    rcases List.mem_append.mp hc with hH | hP
    · exact (hhost c hH).2.2.2.1
    · exact (portStr_char_props (hps c hP)).2.2.2.2.1
  have hnb2 : (host ++ ps).contains ']' = false := by
    apply contains_eq_false_of
    intro c hc
    rcases List.mem_append.mp hc with hH | hP
    · exact (hhost c hH).2.2.2.2.1
    · exact (portStr_char_props (hps c hP)).2.2.2.2.2.1
  have hhost3 : ∀ c ∈ host, c ≠ '/' ∧ c ≠ '?' ∧ c ≠ '#' := by
    intro c hc
    exact ⟨(hhost c hc).1, (hhost c hc).2.1, (hhost c hc).2.2.1⟩
  simp only [urlsplitM]
  rw [hfil, splitSchemeM_https]
  simp only []
  rw [netlocSplit_render host ps t hhost3 hps]
  simp only []
  rw [if_neg (by rw [hnb1, hnb2]; decide)]
  rw [hsharp]
  simp only []
  rw [hquest]

theorem hostinfoM_render (host ps : List Char)
    (hat : ∀ c ∈ host ++ ps, c ≠ '@' ∧ c ≠ '[')
    (hcolonHost : ∀ c ∈ host, c ≠ ':')
    (hcase : ps = [] ∨ ∃ n, ps = ':' :: natChars n) :
    hostinfoM (host ++ ps) = (host, ps.tail) := by
  have hnb : (host ++ ps).contains '[' = false :=
    contains_eq_false_of (fun c hc => (hat c hc).2)
  have hnoColon : ∀ c ∈ host, (fun c => decide (c = ':')) c = false := by
    intro c hc
    simp [hcolonHost c hc]
  simp only [hostinfoM]
  rw [afterLastAtSign_id _ (fun c hc => (hat c hc).1)]
  rw [if_neg (by rw [hnb]; decide)]
  rcases hcase with rfl | ⟨n, rfl⟩
  · rw [List.append_nil]
    rw [splitAtFirst_none_of _ host hnoColon]
    rfl
  · rw [splitAtFirst_append _ ':' (natChars n) (by decide) host hnoColon]
    rfl

theorem hostnameM_render (host ps : List Char) (hne : host ≠ [])
    (hlower : host.map pyCharLower = host)
    (hat : ∀ c ∈ host ++ ps, c ≠ '@' ∧ c ≠ '[')
    (hcolonHost : ∀ c ∈ host, c ≠ ':')
    (hcase : ps = [] ∨ ∃ n, ps = ':' :: natChars n) :
    hostnameM (host ++ ps) = some host := by
  simp only [hostnameM]
  rw [hostinfoM_render host ps hat hcolonHost hcase]
  simp only []
  rw [if_neg (by simp [hne]), hlower]

theorem portM_render_none (host : List Char)
    (hat : ∀ c ∈ host, c ≠ '@' ∧ c ≠ '[')
    (hcolonHost : ∀ c ∈ host, c ≠ ':') :
    portM (host ++ []) = .ok none := by
  simp only [portM]
  rw [hostinfoM_render host [] (by intro c hc; exact hat c (by simpa using hc))
    hcolonHost (Or.inl rfl)]
  rfl

theorem portM_render_port (host : List Char) (n : Nat) (hn : n ≤ 65535)
    (hat : ∀ c ∈ host ++ ':' :: natChars n, c ≠ '@' ∧ c ≠ '[')
    (hcolonHost : ∀ c ∈ host, c ≠ ':') :
    portM (host ++ ':' :: natChars n) = .ok (some n) := by
  simp only [portM]
  rw [hostinfoM_render host (':' :: natChars n) hat hcolonHost (Or.inr ⟨n, rfl⟩)]
  simp only [List.tail_cons]
  rw [if_neg (by simp [natChars_ne_nil n])]
  rw [parseDigits_natChars n]
  simp only []
  rw [if_pos hn]

theorem validateParsedM_render (host ps pth q f : List Char) (hne : host ≠ [])
    (hlower : host.map pyCharLower = host) (hwiki : isWikiHost host = true)
    (hat : ∀ c ∈ host ++ ps, c ≠ '@' ∧ c ≠ '[')
    (hcolonHost : ∀ c ∈ host, c ≠ ':')
    (hcase : ps = [] ∨ ∃ n, ps = ':' :: natChars n) :
    validateParsedM ⟨"https".toList, host ++ ps, pth, q, f⟩ = .ok host := by
  unfold validateParsedM
  simp only []
  rw [if_neg (by simp)]
  rw [hostnameM_render host ps hne hlower hat hcolonHost hcase]
  simp only []
  rw [if_pos hwiki]

theorem normalizeParts_render (p : UrlParts)
    (hne : p.host ≠ [])
    (hhostA : ∀ c ∈ p.host, c ≠ '/' ∧ c ≠ '?' ∧ c ≠ '#' ∧ c ≠ '@' ∧
      isUnsafeUrlChar c = false)
    (hb1 : ∀ c ∈ p.host, c ≠ '[')
    (hb2 : ∀ c ∈ p.host, c ≠ ']')
    (hb3 : ∀ c ∈ p.host, c ≠ ':')
    (hlower : p.host.map pyCharLower = p.host)
    (hwiki : isWikiHost p.host = true)
    (hport : ∀ n, p.port = some n → n ≤ 65535 ∧ n ≠ 0 ∧ n ≠ 80 ∧ n ≠ 443)
    (hstart : hasStart "/wiki/".toList p.path = true)
    (hpathc : ∀ c ∈ p.path, c ≠ '?' ∧ c ≠ '#' ∧ isUnsafeUrlChar c = false)
    (hlast : p.path.getLast? ≠ some '/') :
    normalizeParts (renderParts p) = .ok p := by
  obtain ⟨t, hpt0⟩ := (hasStart_iff "/wiki/".toList p.path).mp hstart
  have hpt : p.path = '/' :: ('w' :: 'i' :: 'k' :: 'i' :: '/' :: t) := hpt0
  have hhostB : ∀ c ∈ p.host, c ≠ '/' ∧ c ≠ '?' ∧ c ≠ '#' ∧ c ≠ '[' ∧ c ≠ ']' ∧
      isUnsafeUrlChar c = false := by
    intro c hc
    exact ⟨(hhostA c hc).1, (hhostA c hc).2.1, (hhostA c hc).2.2.1,
      hb1 c hc, hb2 c hc, (hhostA c hc).2.2.2.2⟩
  have hpathc2 : ∀ c ∈ '/' :: ('w' :: 'i' :: 'k' :: 'i' :: '/' :: t),
      c ≠ '?' ∧ c ≠ '#' ∧ isUnsafeUrlChar c = false := by
    rw [← hpt]
    exact hpathc
  have hlast2 : ('/' :: ('w' :: 'i' :: 'k' :: 'i' :: '/' :: t)).getLast? ≠
      some '/' := by
    rw [← hpt]
    exact hlast
  have hstart2 : hasStart "/wiki/".toList
      ('/' :: ('w' :: 'i' :: 'k' :: 'i' :: '/' :: t)) = true := by
    rw [← hpt]
    exact hstart
  have hfin : finishPath (stripTrailingSlash (path0Of
      ('/' :: ('w' :: 'i' :: 'k' :: 'i' :: '/' :: t)))) ([] : List Char) =
      .ok ('/' :: ('w' :: 'i' :: 'k' :: 'i' :: '/' :: t)) := by
    have hp0 : path0Of ('/' :: ('w' :: 'i' :: 'k' :: 'i' :: '/' :: t)) =
        '/' :: ('w' :: 'i' :: 'k' :: 'i' :: '/' :: t) := rfl
    have hstr : stripTrailingSlash ('/' :: ('w' :: 'i' :: 'k' :: 'i' :: '/' :: t)) =
        '/' :: ('w' :: 'i' :: 'k' :: 'i' :: '/' :: t) := by
      unfold stripTrailingSlash
      rw [if_neg (fun hx => hlast2 hx.2)]
    rw [hp0, hstr]
    have htriple : ¬('/' :: ('w' :: 'i' :: 'k' :: 'i' :: '/' :: t) =
          "/w/index.php".toList ∨
        '/' :: ('w' :: 'i' :: 'k' :: 'i' :: '/' :: t) = "/w/index.php/".toList ∨
        '/' :: ('w' :: 'i' :: 'k' :: 'i' :: '/' :: t) = ['/']) := by
      rintro (he | he | he)
      · have he1 : ('/' :: 'w' :: 'i' :: 'k' :: 'i' :: '/' :: t : List Char) =
            '/' :: 'w' :: '/' :: 'i' :: 'n' :: 'd' :: 'e' :: 'x' :: '.' ::
              'p' :: 'h' :: 'p' :: [] := he
        injection he1 with e0 e1
        injection e1 with e2 e3
        injection e3 with e4 e5
        exact absurd e4 (by decide)
      · have he1 : ('/' :: 'w' :: 'i' :: 'k' :: 'i' :: '/' :: t : List Char) =
            '/' :: 'w' :: '/' :: 'i' :: 'n' :: 'd' :: 'e' :: 'x' :: '.' ::
              'p' :: 'h' :: 'p' :: '/' :: [] := he
        injection he1 with e0 e1
        injection e1 with e2 e3
        injection e3 with e4 e5
        exact absurd e4 (by decide)
      · have he1 : ('/' :: 'w' :: 'i' :: 'k' :: 'i' :: '/' :: t : List Char) =
            '/' :: [] := he
        injection he1 with e0 e1
        exact List.noConfusion e1
    unfold finishPath
    rw [if_neg htriple]
    rw [if_neg (not_not_intro hstart2)]
  rcases hpp : p.port with _ | n
  · have hrend : renderParts p = "https".toList ++ ':' :: '/' :: '/' ::
        (p.host ++ (([] : List Char) ++ p.path)) := by
      simp only [renderParts, hpp, List.append_assoc]
      rfl
    rw [hrend, hpt]
    have hsplit := urlsplitM_render p.host [] ('w' :: 'i' :: 'k' :: 'i' :: '/' :: t)
      hhostB (by intro c hc; exact absurd hc (List.not_mem_nil c)) hpathc2
    have hat : ∀ c ∈ p.host ++ ([] : List Char), c ≠ '@' ∧ c ≠ '[' := by
      intro c hc
      rw [List.append_nil] at hc
      exact ⟨(hhostA c hc).2.2.2.1, hb1 c hc⟩
    have hval := validateParsedM_render p.host []
      ('/' :: ('w' :: 'i' :: 'k' :: 'i' :: '/' :: t)) [] []
      hne hlower hwiki hat hb3 (Or.inl rfl)
    have hpm := portM_render_none p.host
      (by intro c hc; exact ⟨(hhostA c hc).2.2.2.1, hb1 c hc⟩) hb3
    simp only [normalizeParts, hsplit, hval, hpm, hfin]
    rw [← hpt, show keptPortOf none = none from rfl, ← hpp]
  · obtain ⟨hn65, hn0, hn80, hn443⟩ := hport n hpp
    have hrend : renderParts p = "https".toList ++ ':' :: '/' :: '/' ::
        (p.host ++ ((':' :: natChars n) ++ p.path)) := by
      simp only [renderParts, hpp, List.append_assoc]
      rfl
    rw [hrend, hpt]
    have hsplit := urlsplitM_render p.host (':' :: natChars n)
      ('w' :: 'i' :: 'k' :: 'i' :: '/' :: t) hhostB (portStrChars n) hpathc2
    have hat : ∀ c ∈ p.host ++ ':' :: natChars n, c ≠ '@' ∧ c ≠ '[' := by
      intro c hc
      rcases List.mem_append.mp hc with hH | hP
      · exact ⟨(hhostA c hH).2.2.2.1, hb1 c hH⟩
      · have h7 := portStr_char_props (portStrChars n c hP)
        exact ⟨h7.2.2.2.1, h7.2.2.2.2.1⟩
    have hval := validateParsedM_render p.host (':' :: natChars n)
      ('/' :: ('w' :: 'i' :: 'k' :: 'i' :: '/' :: t)) [] []
      hne hlower hwiki hat hb3 (Or.inr ⟨n, rfl⟩)
    have hpm := portM_render_port p.host n hn65 hat hb3
    simp only [normalizeParts, hsplit, hval, hpm, hfin]
    have hkept : keptPortOf (some n) = some n := by
      simp only [keptPortOf]
      rw [if_pos ⟨hn0, hn80, hn443⟩]
    rw [hkept, ← hpt, ← hpp]

/-- C4 (amended): on any input on which the normalizer succeeds, running
it a second time on its own output returns that output unchanged,
provided the produced host contains no bracket or colon characters
(reachable only through pathological bracketed netlocs) and the produced
path does not end in `'/'` (reachable only through a doubled trailing
slash, as in the counterexample). -/
theorem C4_normalize_idempotent_amended (u : List Char) (p : UrlParts)
    (h : normalizeParts u = .ok p)
    (hb1 : ∀ c ∈ p.host, c ≠ '[')
    (hb2 : ∀ c ∈ p.host, c ≠ ']')
    (hb3 : ∀ c ∈ p.host, c ≠ ':')
    (hlast : p.path.getLast? ≠ some '/') :
    normalize_wikipedia_url u = .ok (renderParts p) ∧
    normalize_wikipedia_url (renderParts p) = .ok (renderParts p) := by
  obtain ⟨hne, hlower, hwiki, hhostA, hport, hstart, hpathc⟩ :=
    normalizeParts_inv u p h
  constructor
  · unfold normalize_wikipedia_url
    rw [h]
  · unfold normalize_wikipedia_url
    rw [normalizeParts_render p hne hhostA hb1 hb2 hb3 hlower hwiki hport
      hstart hpathc hlast]

/-- Witness for C4 (amended): a plain article URL, normalizing to itself. -/
theorem C4_normalize_idempotent_amended_witness :
    normalizeParts "https://en.wikipedia.org/wiki/AI".toList =
      .ok ⟨"en.wikipedia.org".toList, none, "/wiki/AI".toList⟩ ∧
    (normalize_wikipedia_url "https://en.wikipedia.org/wiki/AI".toList =
        .ok (renderParts ⟨"en.wikipedia.org".toList, none, "/wiki/AI".toList⟩) ∧
      normalize_wikipedia_url
          (renderParts ⟨"en.wikipedia.org".toList, none, "/wiki/AI".toList⟩) =
        .ok (renderParts ⟨"en.wikipedia.org".toList, none, "/wiki/AI".toList⟩)) :=
  ⟨by decide,
   C4_normalize_idempotent_amended "https://en.wikipedia.org/wiki/AI".toList
     ⟨"en.wikipedia.org".toList, none, "/wiki/AI".toList⟩
     (by decide) (by decide) (by decide) (by decide) (by decide)⟩

end WikiSpec
